import Mathlib

/-!
Verification of the QAPI schema front end (scripts/qapi) against its
natural-language specification.

The Python sources are shallowly embedded: each Lean definition carries a
comment naming the Python class/method (and line numbers in
scripts/qapi/schema.py, scripts/qapi/parser.py, scripts/qapi/error.py) that
it translates.  The name-mangling function `c_name` lives in the module
`common.py`, which is not part of the sources; every definition that uses it
is therefore parametric in a function `cname : String → String`.
-/

namespace Qapi

/-- Association-list lookup, mirroring Python `dict.get` (insertion at the
head shadows nothing because keys are checked before insertion wherever the
Python code relies on uniqueness). -/
def alookup {κ α : Type} [DecidableEq κ] (k : κ) : List (κ × α) → Option α
  | [] => none
  | (k', v) :: rest => if k' = k then some v else alookup k rest

theorem alookup_eq_none {κ α : Type} [DecidableEq κ] (k : κ) (l : List (κ × α)) :
    alookup k l = none ↔ k ∉ l.map Prod.fst := by
  induction l with
  | nil => simp [alookup]
  | cons p rest ih =>
    obtain ⟨k', v⟩ := p
    by_cases h : k' = k
    · subst h; simp [alookup]
    · simp only [alookup, if_neg h, ih, List.map_cons, List.mem_cons]
      constructor
      · intro hnot hmem
        rcases hmem with hmem | hmem
        · exact h hmem.symm
        · exact hnot hmem
      · intro hnot hmem
        exact hnot (Or.inr hmem)

theorem alookup_cons {κ α : Type} [DecidableEq κ] (k k' : κ) (v : α) (l : List (κ × α)) :
    alookup k ((k', v) :: l) = if k' = k then some v else alookup k l := rfl

/-! ## C6: error-column computation

`QAPIParseError.make` (parser.py lines 51-59) and `QAPIParseError.__init__`
(error.py lines 41-50) both compute the reported column by folding over the
consumed source from the last line start up to the error position. -/

/-- Column computation of `QAPIParseError` (error.py lines 44-49, identical in
parser.py lines 53-58): `col = 1; for ch in src: col = (col + 7) % 8 + 1 if
ch == TAB else col + 1`. -/
def errorColumn (src : List Char) : Nat :=
  src.foldl (fun col ch => if ch = '\t' then (col + 7) % 8 + 1 else col + 1) 1

/-- Modelled from the spec: "expanding tabs to the next multiple of 8" — a tab
advances the column to the next tab stop (the next column that is one past a
multiple of 8); every other character advances the column by one. -/
def specTabColumn (src : List Char) : Nat :=
  src.foldl (fun col ch => if ch = '\t' then (col + 7) / 8 * 8 + 1 else col + 1) 1

/-! ## C2: alternate wire-kind distinguishability -/

/-- The QType wire kinds that `QAPISchemaType.alternate_qtype` (schema.py
lines 266-275) can produce. -/
inductive QTypeKind
  | qnull | qstring | qnum | qbool | qdict
  deriving DecidableEq, Repr

/-- An alternate branch's type, as far as `QAPISchemaAlternateType.check`
inspects it: an enum type (whose `json_type()` is `"string"`, schema.py line
365, together with its member names), or any other type identified by its
`json_type()` string (`"string"` for the builtin `str`, `"int"`, `"number"`,
`"boolean"`, `"null"`, `"object"` for object types, `"array"` for array
types, `"value"` for `any` and alternates). -/
inductive AltBranchType
  | enum (memberNames : List String)
  | plain (jsonType : String)
  deriving DecidableEq, Repr

/-- `json_type()` of an alternate branch's type. -/
def AltBranchType.jsonType : AltBranchType → String
  | .enum _ => "string"
  | .plain j => j

/-- `QAPISchemaType.alternate_qtype` (schema.py lines 266-275): the
`json2qtype` lookup; `none` models the `KeyError` for `json_type`s absent
from the table (`array`, `value`). -/
def alternateQtype (t : AltBranchType) : Option QTypeKind :=
  match t.jsonType with
  | "null" => some .qnull
  | "string" => some .qstring
  | "number" => some .qnum
  | "int" => some .qnum
  | "boolean" => some .qbool
  | "object" => some .qdict
  | _ => none

/-- `re.match(r'[-+0-9.]', name)` (schema.py line 598): does the name begin
with a digit, `+`, `-`, or `.`? -/
def numericStart (name : String) : Bool :=
  match name.data with
  | [] => false
  | c :: _ => c = '-' || c = '+' || c = '.' || ('0' ≤ c && c ≤ '9')

/-- The `conflicting` set computed for one branch by
`QAPISchemaAlternateType.check` (schema.py lines 592-603), as a
duplicate-free list: the branch's own wire kind, expanded for string-typed
branches (enum values `on`/`off` add the boolean kind, enum values with a
numeric start add the numeric kind, a non-enum string adds both).
`none` models the `KeyError` path (line 587). -/
def conflictingKinds (t : AltBranchType) : Option (List QTypeKind) :=
  match alternateQtype t with
  | none => none
  | some q =>
    if q = .qstring then
      match t with
      | .enum ms =>
        some ([QTypeKind.qstring]
          ++ (if ms.any (fun n => n = "on" || n = "off") then [QTypeKind.qbool] else [])
          ++ (if ms.any numericStart then [QTypeKind.qnum] else []))
      | .plain _ => some [QTypeKind.qstring, QTypeKind.qnum, QTypeKind.qbool]
    else
      some [q]

/-- The conflicting kinds with the `KeyError` case defaulted away; used only
to state theorems whose hypotheses already rule that case out. -/
def kindsOf (t : AltBranchType) : List QTypeKind :=
  (conflictingKinds t).getD []

/-- One branch of an alternate: its case name and its type. -/
structure AltVariant where
  name : String
  ty : AltBranchType
  deriving DecidableEq, Repr

/-- The errors `QAPISchemaAlternateType.check` can raise from its branch
loop: a member-name collision (`QAPISchemaMember.check_clash`, schema.py
lines 752-761), "cannot use" for a type without a wire kind (lines 586-590),
and "can't be distinguished from" (lines 605-609). -/
inductive AltErr
  | collides (name other : String)
  | cannotUse (name : String)
  | cantDistinguish (name earlier : String)
  deriving DecidableEq, Repr

/-- The inner `for qtype in conflicting` loop (schema.py lines 605-611):
record each conflicting kind in `types_seen`, erroring if it is already
claimed by an earlier branch. -/
def insertKinds (vname : String) :
    List QTypeKind → List (QTypeKind × String) → Except AltErr (List (QTypeKind × String))
  | [], ts => .ok ts
  | q :: qs, ts =>
    match alookup q ts with
    | some earlier => .error (.cantDistinguish vname earlier)
    | none => insertKinds vname qs ((q, vname) :: ts)

/-- The branch loop of `QAPISchemaAlternateType.check` (schema.py lines
582-611), parametric in the mangling function `cname`:
`variant.check_clash` on the branch name, then the wire-kind conflict
bookkeeping. -/
def alternateCheckLoop (cname : String → String) :
    List AltVariant → List (String × String) → List (QTypeKind × String) →
    Except AltErr Unit
  | [], _, _ => .ok ()
  | v :: rest, seen, typesSeen =>
    match alookup (cname v.name) seen with
    | some other => .error (.collides v.name other)
    | none =>
      match conflictingKinds v.ty with
      | none => .error (.cannotUse v.name)
      | some conf =>
        match insertKinds v.name conf typesSeen with
        | .error e => .error e
        | .ok ts' => alternateCheckLoop cname rest ((cname v.name, v.name) :: seen) ts'

/-- `QAPISchemaAlternateType.check` (schema.py lines 571-611), restricted to
its distinguishability loop: `seen` and `types_seen` start empty. -/
def alternateCheck (cname : String → String) (vs : List AltVariant) : Except AltErr Unit :=
  alternateCheckLoop cname vs [] []

theorem kindsOf_nodup (t : AltBranchType) : (kindsOf t).Nodup := by
  unfold kindsOf conflictingKinds
  cases h : alternateQtype t with
  | none => simp
  | some q =>
    simp only [h]
    by_cases hq : q = QTypeKind.qstring
    · subst hq
      simp only [if_pos rfl]
      cases t with
      | enum ms =>
        simp only [Option.getD_some]
        cases h1 : ms.any (fun n => n = "on" || n = "off") <;>
          cases h2 : ms.any numericStart <;>
            simp [h1, h2]
      | plain j => simp
    · simp [hq]

theorem conflictingKinds_eq_kindsOf {t : AltBranchType} (h : conflictingKinds t ≠ none) :
    conflictingKinds t = some (kindsOf t) := by
  cases hc : conflictingKinds t with
  | none => exact absurd hc h
  | some l => simp [kindsOf, hc]

theorem insertKinds_err {n : String} {qs : List QTypeKind} {ts : List (QTypeKind × String)}
    {e : AltErr} (h : insertKinds n qs ts = .error e) :
    ∃ a b, e = AltErr.cantDistinguish a b := by
  induction qs generalizing ts with
  | nil => simp [insertKinds] at h
  | cons q qs ih =>
    simp only [insertKinds] at h
    cases hl : alookup q ts with
    | some earlier =>
      rw [hl] at h
      exact ⟨n, earlier, (Except.error.injEq _ _).mp h |>.symm⟩
    | none =>
      rw [hl] at h
      exact ih h

theorem insertKinds_ok_lookup {n : String} {qs : List QTypeKind}
    {ts ts' : List (QTypeKind × String)} (h : insertKinds n qs ts = .ok ts') :
    ∀ q, alookup q ts' = if q ∈ qs then some n else alookup q ts := by
  induction qs generalizing ts with
  | nil =>
    simp only [insertKinds, Except.ok.injEq] at h
    subst h; simp
  | cons q0 qs ih =>
    intro q
    simp only [insertKinds] at h
    cases hl : alookup q0 ts with
    | some earlier => rw [hl] at h; cases h
    | none =>
      rw [hl] at h
      have := ih h q
      by_cases hmem : q ∈ qs
      · simp [hmem] at this ⊢; exact this
      · simp only [if_neg hmem] at this
        by_cases hq : q = q0
        · subst hq
          simp only [List.mem_cons, true_or, if_pos]
          rw [this, alookup_cons, if_pos rfl]
        · have : alookup q ((q0, n) :: ts) = alookup q ts := by
            rw [alookup_cons, if_neg (fun hc => hq hc.symm)]
          simp only [List.mem_cons, hq, hmem, or_self, if_neg, not_false_iff]
          rw [ih h q, if_neg hmem, this]

theorem insertKinds_ok_iff {n : String} {qs : List QTypeKind}
    {ts : List (QTypeKind × String)} (hnd : qs.Nodup) :
    (∃ ts', insertKinds n qs ts = .ok ts') ↔ ∀ q ∈ qs, alookup q ts = none := by
  induction qs generalizing ts with
  | nil => simp [insertKinds]
  | cons q0 qs ih =>
    simp only [insertKinds, List.mem_cons]
    cases hl : alookup q0 ts with
    | some earlier =>
      simp only [hl]
      constructor
      · rintro ⟨ts', hts'⟩; cases hts'
      · intro hall
        have := hall q0 (Or.inl rfl)
        rw [hl] at this; cases this
    | none =>
      simp only [hl]
      rw [ih (List.Nodup.of_cons hnd)]
      constructor
      · intro hall q hq
        rcases hq with rfl | hq
        · exact hl
        · have := hall q hq
          rw [alookup_cons] at this
          by_cases hq0 : q0 = q
          · subst hq0
            exact absurd hq (by simpa using (List.nodup_cons.mp hnd).1)
          · rwa [if_neg hq0] at this
      · intro hall q hq
        rw [alookup_cons]
        by_cases hq0 : q0 = q
        · subst hq0
          exact absurd hq (by simpa using (List.nodup_cons.mp hnd).1)
        · rw [if_neg hq0]
          exact hall q (Or.inr hq)

theorem alternateCheckLoop_ok_iff (cname : String → String) (vs : List AltVariant)
    (seen : List (String × String)) (ts : List (QTypeKind × String))
    (hn : (vs.map (fun v => cname v.name)).Nodup)
    (hd : ∀ v ∈ vs, alookup (cname v.name) seen = none)
    (hk : ∀ v ∈ vs, conflictingKinds v.ty ≠ none) :
    alternateCheckLoop cname vs seen ts = .ok () ↔
      ((∀ v ∈ vs, ∀ q ∈ kindsOf v.ty, alookup q ts = none) ∧
        vs.Pairwise (fun a b => ∀ q ∈ kindsOf a.ty, q ∉ kindsOf b.ty)) := by
  induction vs generalizing seen ts with
  | nil => simp [alternateCheckLoop]
  | cons v rest ih =>
    have hvseen : alookup (cname v.name) seen = none := hd v (List.mem_cons_self _ _)
    have hvconf : conflictingKinds v.ty = some (kindsOf v.ty) :=
      conflictingKinds_eq_kindsOf (hk v (List.mem_cons_self _ _))
    simp only [alternateCheckLoop, hvseen, hvconf]
    cases hins : insertKinds v.name (kindsOf v.ty) ts with
    | error e =>
      constructor
      · intro hok; cases hok
      · rintro ⟨hfresh, -⟩
        have hok : ∃ ts', insertKinds v.name (kindsOf v.ty) ts = .ok ts' :=
          (insertKinds_ok_iff (kindsOf_nodup v.ty)).mpr
            (fun q hq => hfresh v (List.mem_cons_self _ _) q hq)
        rw [hins] at hok
        obtain ⟨ts', hts'⟩ := hok
        cases hts'
    | ok ts' =>
      have hts' := insertKinds_ok_lookup hins
      have hninserted : ∀ q ∈ kindsOf v.ty, alookup q ts = none := by
        exact (@insertKinds_ok_iff v.name (kindsOf v.ty) ts
          (kindsOf_nodup v.ty)).mp ⟨ts', hins⟩
      have hnrest : (rest.map (fun v => cname v.name)).Nodup :=
        (List.nodup_cons.mp (by simpa using hn)).2
      have hhead : cname v.name ∉ rest.map (fun v => cname v.name) :=
        (List.nodup_cons.mp (by simpa using hn)).1
      have hdrest : ∀ u ∈ rest, alookup (cname u.name) ((cname v.name, v.name) :: seen) = none := by
        intro u hu
        rw [alookup_cons, if_neg, hd u (List.mem_cons_of_mem _ hu)]
        intro hc
        exact hhead (hc ▸ List.mem_map_of_mem (fun v => cname v.name) hu)
      have hkrest : ∀ u ∈ rest, conflictingKinds u.ty ≠ none :=
        fun u hu => hk u (List.mem_cons_of_mem _ hu)
      rw [ih _ _ hnrest hdrest hkrest]
      simp only [List.pairwise_cons, List.mem_cons, forall_eq_or_imp]
      constructor
      · rintro ⟨hfresh, hpw⟩
        refine ⟨⟨hninserted, fun u hu q hq => ?_⟩, fun u hu q hq => ?_, hpw⟩
        · have h0 := hfresh u hu q hq
          by_cases hmem : q ∈ kindsOf v.ty
          · rw [hts' q, if_pos hmem] at h0
            exact Option.noConfusion h0
          · rwa [hts' q, if_neg hmem] at h0
        · intro hq'
          have h0 := hfresh u hu q hq'
          rw [hts' q, if_pos hq] at h0
          exact Option.noConfusion h0
      · rintro ⟨⟨-, hrest_ts⟩, hvdisj, hpw⟩
        refine ⟨fun u hu q hq => ?_, hpw⟩
        rw [hts' q]
        split_ifs with hmem
        · exact absurd hq (hvdisj u hu q hmem)
        · exact hrest_ts u hu q hq


theorem alternateCheckLoop_err (cname : String → String) (vs : List AltVariant)
    (seen : List (String × String)) (ts : List (QTypeKind × String))
    (hn : (vs.map (fun v => cname v.name)).Nodup)
    (hd : ∀ v ∈ vs, alookup (cname v.name) seen = none)
    (hk : ∀ v ∈ vs, conflictingKinds v.ty ≠ none)
    (e : AltErr) (h : alternateCheckLoop cname vs seen ts = .error e) :
    ∃ a b, e = AltErr.cantDistinguish a b := by
  induction vs generalizing seen ts with
  | nil => simp [alternateCheckLoop] at h
  | cons v rest ih =>
    have hvseen : alookup (cname v.name) seen = none := hd v (List.mem_cons_self _ _)
    have hvconf : conflictingKinds v.ty = some (kindsOf v.ty) :=
      conflictingKinds_eq_kindsOf (hk v (List.mem_cons_self _ _))
    simp only [alternateCheckLoop, hvseen, hvconf] at h
    cases hins : insertKinds v.name (kindsOf v.ty) ts with
    | error e' =>
      rw [hins] at h
      have he' : e' = e := by
        simpa using h
      exact he' ▸ insertKinds_err hins
    | ok ts' =>
      rw [hins] at h
      have hnrest : (rest.map (fun v => cname v.name)).Nodup :=
        (List.nodup_cons.mp (by simpa using hn)).2
      have hhead : cname v.name ∉ rest.map (fun v => cname v.name) :=
        (List.nodup_cons.mp (by simpa using hn)).1
      have hdrest : ∀ u ∈ rest,
          alookup (cname u.name) ((cname v.name, v.name) :: seen) = none := by
        intro u hu
        rw [alookup_cons, if_neg, hd u (List.mem_cons_of_mem _ hu)]
        intro hc
        exact hhead (hc ▸ List.mem_map_of_mem (fun v => cname v.name) hu)
      exact ih _ _ hnrest hdrest (fun u hu => hk u (List.mem_cons_of_mem _ hu)) h

/-- C2: for an alternate whose branch names do not collide under mangling and
whose branch types all have a wire kind, `QAPISchemaAlternateType.check`
succeeds exactly when the conflicting wire-kind sets of the branches (own
kind, plus boolean for a string enum containing `on`/`off`, plus numeric for
a string enum with a value starting with a digit, `+`, `-` or `.`, plus both
for a non-enum string branch) are pairwise disjoint, and every failure it
reports is a "can't be distinguished from" error. -/
theorem alternate_distinguishability (cname : String → String) (vs : List AltVariant)
    (hn : (vs.map (fun v => cname v.name)).Nodup)
    (hk : ∀ v ∈ vs, conflictingKinds v.ty ≠ none) :
    (alternateCheck cname vs = .ok () ↔
      vs.Pairwise (fun a b => ∀ q ∈ kindsOf a.ty, q ∉ kindsOf b.ty)) ∧
    (∀ e, alternateCheck cname vs = .error e →
      ∃ a b, e = AltErr.cantDistinguish a b) := by
  constructor
  · rw [alternateCheck, alternateCheckLoop_ok_iff cname vs [] [] hn
      (fun v _ => rfl) hk]
    simp [alookup]
  · intro e he
    exact alternateCheckLoop_err cname vs [] [] hn (fun v _ => rfl) hk e he

/-- Witness for C2: a two-branch alternate — a string enum (containing the
value `on`, so it also claims the boolean kind) next to an `int` branch —
passes the check, and the theorem's hypotheses hold for it. -/
theorem alternate_distinguishability_witness :
    alternateCheck (fun s => s)
      [⟨"a", .enum ["x", "on"]⟩, ⟨"b", .plain "int"⟩] = .ok () :=
  ((alternate_distinguishability (fun s => s)
      [⟨"a", .enum ["x", "on"]⟩, ⟨"b", .plain "int"⟩]
      (by decide) (by decide)).1).mpr (by decide)

/-- C6 (code bug): the column that `QAPIParseError` reports after consuming a
tab is not the next multiple-of-8 tab stop.  A lone tab before the error
position yields column 1 under the code's `(col + 7) % 8 + 1` update, where
tab expansion to the next multiple of 8 requires column 9; after eight
ordinary characters a tab even moves the column backwards from 9 to 1. -/
theorem error_column_tab_divergence :
    errorColumn ['\t'] = 1 ∧ specTabColumn ['\t'] = 9 ∧
    errorColumn ['1', '2', '3', '4', '5', '6', '7', '8', '\t'] = 1 ∧
    specTabColumn ['1', '2', '3', '4', '5', '6', '7', '8', '\t'] = 17 := by
  decide

/-! ## C3: member-name clash checking in object types -/

/-- The error of `QAPISchemaMember.check_clash` (schema.py lines 752-761):
"%s collides with %s". -/
inductive ClashErr
  | collides (name other : String)
  deriving DecidableEq, Repr

/-- `QAPISchemaMember.check_clash` (schema.py lines 752-761): mangle the
member name with `c_name`, fail if the mangled name was seen, else record
it.  Only the member's name takes part, so members are plain names here. -/
def memberCheckClash (cname : String → String) (name : String)
    (seen : List (String × String)) : Except ClashErr (List (String × String)) :=
  match alookup (cname name) seen with
  | some other => .error (.collides name other)
  | none => .ok ((cname name, name) :: seen)

/-- A sequence of `check_clash` calls threading `seen`, as performed for the
base's members by `QAPISchemaObjectType.check_clash` (schema.py lines
497-503) and for the local members by `QAPISchemaObjectType.check` (lines
480-482). -/
def membersCheckClash (cname : String → String) :
    List String → List (String × String) → Except ClashErr (List (String × String))
  | [], seen => .ok seen
  | m :: rest, seen =>
    match memberCheckClash cname m seen with
    | .error e => .error e
    | .ok seen' => membersCheckClash cname rest seen'

/-- `QAPISchemaVariants.check_clash` (schema.py lines 725-732): each branch's
members are checked against a fresh copy `dict(seen)` of the members seen so
far, and the copy is discarded, so branches never see each other's names. -/
def variantsCheckClash (cname : String → String) :
    List (List String) → List (String × String) → Except ClashErr Unit
  | [], _ => .ok ()
  | b :: rest, seen =>
    match membersCheckClash cname b seen with
    | .error e => .error e
    | .ok _ => variantsCheckClash cname rest seen

/-- The member-clash portion of `QAPISchemaObjectType.check` (schema.py lines
468-492): the base's members enter `seen` first, then the local members,
`members` is frozen as the values of `seen`, and finally the variants'
clash check runs on (copies of) `seen`.  `branches` holds the flattened
member names of each (already checked) variant type. -/
def objectCheckClash (cname : String → String) (base locals : List String)
    (branches : List (List String)) : Except ClashErr (List String) :=
  match membersCheckClash cname base [] with
  | .error e => .error e
  | .ok s1 =>
    match membersCheckClash cname locals s1 with
    | .error e => .error e
    | .ok s2 =>
      match variantsCheckClash cname branches s2 with
      | .error e => .error e
      | .ok _ => .ok (s2.reverse.map Prod.snd)

theorem membersCheckClash_ok_iff (cname : String → String) (names : List String)
    (seen : List (String × String)) :
    (∃ s', membersCheckClash cname names seen = .ok s') ↔
      ((names.map cname).Nodup ∧ ∀ n ∈ names, alookup (cname n) seen = none) := by
  induction names generalizing seen with
  | nil => simp [membersCheckClash]
  | cons m rest ih =>
    simp only [membersCheckClash, memberCheckClash]
    cases hm : alookup (cname m) seen with
    | some other =>
      simp only [hm]
      constructor
      · rintro ⟨s', hs'⟩; cases hs'
      · rintro ⟨-, hall⟩
        have := hall m (List.mem_cons_self _ _)
        rw [hm] at this; cases this
    | none =>
      simp only [hm]
      rw [ih ((cname m, m) :: seen)]
      simp only [List.map_cons, List.nodup_cons, List.mem_cons, forall_eq_or_imp]
      constructor
      · rintro ⟨hnd, hall⟩
        refine ⟨⟨fun hmem => ?_, hnd⟩, hm, fun n hn => ?_⟩
        · obtain ⟨n, hn, hcn⟩ := List.mem_map.mp hmem
          have h0 := hall n hn
          rw [alookup_cons, if_pos hcn.symm] at h0
          exact Option.noConfusion h0
        · have h0 := hall n hn
          rw [alookup_cons] at h0
          by_cases hc : cname m = cname n
          · rw [if_pos hc] at h0
            exact Option.noConfusion h0
          · rwa [if_neg hc] at h0
      · rintro ⟨⟨hnotmem, hnd⟩, -, hall⟩
        refine ⟨hnd, fun n hn => ?_⟩
        rw [alookup_cons, if_neg, hall n hn]
        intro hc
        exact hnotmem (hc ▸ List.mem_map_of_mem cname hn)

theorem membersCheckClash_result (cname : String → String) {names : List String}
    {seen s' : List (String × String)}
    (h : membersCheckClash cname names seen = .ok s') :
    s' = (names.map (fun n => (cname n, n))).reverse ++ seen := by
  induction names generalizing seen with
  | nil =>
    simp only [membersCheckClash, Except.ok.injEq] at h
    simp [h.symm]
  | cons m rest ih =>
    simp only [membersCheckClash, memberCheckClash] at h
    cases hm : alookup (cname m) seen with
    | some other => rw [hm] at h; cases h
    | none =>
      rw [hm] at h
      rw [ih h]
      simp

theorem membersCheckClash_append (cname : String → String) (xs ys : List String)
    (seen : List (String × String)) :
    membersCheckClash cname (xs ++ ys) seen =
      match membersCheckClash cname xs seen with
      | .error e => .error e
      | .ok s' => membersCheckClash cname ys s' := by
  induction xs generalizing seen with
  | nil => simp [membersCheckClash]
  | cons x xs ih =>
    simp only [List.cons_append, membersCheckClash]
    cases memberCheckClash cname x seen with
    | error e => rfl
    | ok s' => exact ih s'

theorem variantsCheckClash_ok_iff (cname : String → String) (bs : List (List String))
    (seen : List (String × String)) :
    variantsCheckClash cname bs seen = .ok () ↔
      ∀ b ∈ bs, ((b.map cname).Nodup ∧ ∀ n ∈ b, alookup (cname n) seen = none) := by
  induction bs with
  | nil => simp [variantsCheckClash]
  | cons b rest ih =>
    simp only [variantsCheckClash]
    cases hb : membersCheckClash cname b seen with
    | error e =>
      simp only [hb]
      constructor
      · intro h; cases h
      · intro hall
        have : ∃ s', membersCheckClash cname b seen = .ok s' :=
          (membersCheckClash_ok_iff cname b seen).mpr (hall b (List.mem_cons_self _ _))
        obtain ⟨s', hs'⟩ := this
        rw [hb] at hs'; cases hs'
    | ok s' =>
      simp only [hb, ih, List.mem_cons, forall_eq_or_imp]
      have hbok : (b.map cname).Nodup ∧ ∀ n ∈ b, alookup (cname n) seen = none :=
        (membersCheckClash_ok_iff cname b seen).mp ⟨s', hb⟩
      exact ⟨fun h => ⟨hbok, h⟩, fun h => h.2⟩

theorem objectCheckClash_flatten (cname : String → String) (base locals : List String)
    (branches : List (List String)) :
    objectCheckClash cname base locals branches =
      match membersCheckClash cname (base ++ locals) [] with
      | .error e => .error e
      | .ok s2 =>
        match variantsCheckClash cname branches s2 with
        | .error e => .error e
        | .ok _ => .ok (s2.reverse.map Prod.snd) := by
  unfold objectCheckClash
  rw [membersCheckClash_append cname base locals []]
  cases membersCheckClash cname base [] <;> rfl

theorem objectCheckClash_members_error (cname : String → String)
    (base locals : List String) (branches : List (List String)) {e : ClashErr}
    (h : membersCheckClash cname (base ++ locals) [] = .error e) :
    objectCheckClash cname base locals branches = .error e := by
  rw [objectCheckClash_flatten, h]

theorem objectCheckClash_members_ok (cname : String → String)
    (base locals : List String) (branches : List (List String))
    {s2 : List (String × String)}
    (h : membersCheckClash cname (base ++ locals) [] = .ok s2) :
    objectCheckClash cname base locals branches =
      match variantsCheckClash cname branches s2 with
      | .error e => .error e
      | .ok _ => .ok (s2.reverse.map Prod.snd) := by
  rw [objectCheckClash_flatten, h]

/-- C3: the clash check of `QAPISchemaObjectType.check` together with
`QAPISchemaVariants.check_clash` accepts exactly when (a) the mangled names
of base plus local members are pairwise distinct and (b) for each single
union branch, the mangled names of base, local and that branch's members
are pairwise distinct — branches are only ever combined with the shared
base and local members, never with each other, because each branch checks
against a fresh copy of `seen`.  In particular two members mangling to the
same name make the check fail. -/
theorem object_member_clash (cname : String → String) (base locals : List String)
    (branches : List (List String)) :
    objectCheckClash cname base locals branches = .ok (base ++ locals) ↔
      (((base ++ locals).map cname).Nodup ∧
        ∀ b ∈ branches, (((base ++ locals) ++ b).map cname).Nodup) := by
  cases h2 : membersCheckClash cname (base ++ locals) [] with
  | error e =>
    rw [objectCheckClash_members_error cname base locals branches h2]
    constructor
    · intro h; exact Except.noConfusion h
    · rintro ⟨hnd, -⟩
      have hok : ∃ s', membersCheckClash cname (base ++ locals) [] = .ok s' :=
        (membersCheckClash_ok_iff cname (base ++ locals) []).mpr
          ⟨hnd, fun n _ => rfl⟩
      obtain ⟨s', hs'⟩ := hok
      rw [h2] at hs'
      exact Except.noConfusion hs'
  | ok s2 =>
    have hres := membersCheckClash_result cname h2
    have hnd : ((base ++ locals).map cname).Nodup :=
      ((membersCheckClash_ok_iff cname (base ++ locals) []).mp ⟨s2, h2⟩).1
    have hval : s2.reverse.map Prod.snd = base ++ locals := by
      rw [hres]
      simp only [List.append_nil, List.reverse_reverse, List.map_map]
      have hcomp : (Prod.snd ∘ fun n : String => (cname n, n)) = id := rfl
      rw [hcomp, List.map_id]
    have hkey : ∀ n : String,
        (alookup (cname n) s2 = none ↔ cname n ∉ (base ++ locals).map cname) := by
      intro n
      rw [alookup_eq_none, hres]
      simp only [List.append_nil, List.map_reverse, List.map_map, List.mem_reverse]
      have hcomp : (Prod.fst ∘ fun n : String => (cname n, n)) = cname := rfl
      rw [hcomp]
    cases h3 : variantsCheckClash cname branches s2 with
    | error e =>
      have hread : objectCheckClash cname base locals branches = .error e := by
        rw [objectCheckClash_members_ok cname base locals branches h2, h3]
      rw [hread]
      constructor
      · intro h; exact Except.noConfusion h
      · rintro ⟨-, hbr⟩
        have hok : variantsCheckClash cname branches s2 = .ok () := by
          rw [variantsCheckClash_ok_iff]
          intro b hb
          have hnb := hbr b hb
          rw [List.map_append, List.nodup_append] at hnb
          refine ⟨hnb.2.1, fun n hn => (hkey n).mpr fun hmem => ?_⟩
          exact hnb.2.2 hmem (List.mem_map_of_mem cname hn)
        rw [h3] at hok
        exact Except.noConfusion hok
    | ok u =>
      obtain ⟨⟩ := u
      have hread : objectCheckClash cname base locals branches = .ok (base ++ locals) := by
        rw [objectCheckClash_members_ok cname base locals branches h2, h3, hval]
      rw [hread]
      constructor
      · intro _
        refine ⟨hnd, fun b hb => ?_⟩
        have hv := (variantsCheckClash_ok_iff cname branches s2).mp h3 b hb
        rw [List.map_append, List.nodup_append]
        refine ⟨hnd, hv.1, fun a ha hb' => ?_⟩
        obtain ⟨n, hn, rfl⟩ := List.mem_map.mp hb'
        exact ((hkey n).mp (hv.2 n hn)) ha
      · intro _
        rfl

/-! ## C1 and C5: flat-union variant checking (`QAPISchemaVariants.check`) -/

/-- An object-type member as `QAPISchemaVariants.check` consults it
(`QAPISchemaObjectTypeMember`, schema.py lines 806-831): name, referenced
type name, optionality and condition.  The resolved `member.type` is
recovered by looking the type name up in the schema. -/
structure UMember where
  name : String
  typeName : String
  optional : Bool
  ifcond : List String
  deriving DecidableEq, Repr

/-- A union branch (`QAPISchemaVariant`, schema.py lines 840-848): case name,
branch type name and condition; `optional` is always false. -/
structure UVariant where
  name : String
  typeName : String
  ifcond : List String
  deriving DecidableEq, Repr

/-- A resolved type, classified as far as `QAPISchemaVariants.check` inspects
it: an enum type with its members (name and per-member condition), an object
type (whether it has variants of its own, and whether its own
`QAPISchemaObjectType.check` — modelled abstractly, it is the subject of C3 —
succeeds), or any other type. -/
inductive UType
  | enum (members : List (String × List String))
  | object (hasVariants : Bool) (checkOk : Bool)
  | other
  deriving DecidableEq, Repr

/-- The errors `QAPISchemaVariants.check` can raise (schema.py lines
655-723), each carrying the offending name exactly as the corresponding
message does; `assertFailed` stands for the `assert` statements. -/
inductive UErr
  | notMember (tag : String)
  | notEnum (tag : String)
  | tagOptional (tag : String)
  | tagConditional (tag : String)
  | assertFailed
  | noBranches
  | unknownType (branch : String)
  | branchNotValue (branch : String)
  | branchCannotUse (branch : String)
  | branchCheckFailed (branch : String)
  deriving DecidableEq, Repr

/-- The state of a `QAPISchemaVariants` before `check` (schema.py lines
631-649): flat unions carry `tag_name` but no `tag_member`, simple unions
and alternates carry `tag_member` but no `tag_name`. -/
structure UVariantsIn where
  tagName : Option String
  tagMember : Option UMember
  variants : List UVariant
  deriving DecidableEq, Repr

/-- The state after a successful `check`: `tag_member` is set and the
variant list is final (auto-filled for flat unions). -/
structure UVariantsOut where
  tagMember : UMember
  variants : List UVariant
  deriving DecidableEq, Repr

/-- The flat-union half of step one of `QAPISchemaVariants.check` (schema.py
lines 658-690): look the declared discriminator up among the base members
seen so far (keyed by `c_name`), require the found member to carry exactly
that name, require its resolved type to be an enum, require it to be neither
optional nor conditional.  On success, return the member and the enum's
members. -/
def tagResolveFlat (cname : String → String) (schema : List (String × UType))
    (seen : List (String × UMember)) (tn : String) :
    Except UErr (UMember × List (String × List String)) :=
  match alookup (cname tn) seen with
  | none => .error (.notMember tn)
  | some m =>
    if m.name ≠ tn then .error (.notMember tn)
    else
      match alookup m.typeName schema with
      | some (.enum ems) =>
        if m.optional then .error (.tagOptional tn)
        else if m.ifcond ≠ [] then .error (.tagConditional tn)
        else .ok (m, ems)
      | _ => .error (.notEnum tn)

/-- The simple-union half of step one (schema.py lines 691-694): the
synthesized tag member must satisfy by construction what the flat-union path
checks; the `assert`s are modelled as errors. -/
def tagResolveSimple (schema : List (String × UType)) (m : UMember) :
    Except UErr (UMember × List (String × List String)) :=
  match alookup m.typeName schema with
  | some (.enum ems) =>
    if m.optional then .error .assertFailed
    else if m.ifcond ≠ [] then .error .assertFailed
    else .ok (m, ems)
  | _ => .error .assertFailed

/-- The auto-fill loop (schema.py lines 695-703): every enum member whose
name is not among the present branch names gets a fresh branch of type
`q_empty` carrying the enum member's condition, appended in enum order. -/
def fillVariants (ems : List (String × List String)) (vs : List UVariant) :
    List UVariant :=
  vs ++ (ems.filter (fun em => !(vs.any (fun v => v.name = em.1)))).map
    (fun em => ⟨em.1, "q_empty", em.2⟩)

/-- The branch loop (schema.py lines 706-723): resolve each branch's type
(`variant.check`), and — when `seen` is non-empty, i.e. for unions rather
than alternates — require the branch name to be an enum value of the tag
type and the branch type to be an object type without variants whose own
check succeeds. -/
def variantCheckLoop (schema : List (String × UType))
    (ems : List (String × List String)) (seenNonempty : Bool) :
    List UVariant → Except UErr Unit
  | [] => .ok ()
  | v :: rest =>
    match alookup v.typeName schema with
    | none => .error (.unknownType v.name)
    | some t =>
      if seenNonempty then
        if v.name ∈ ems.map Prod.fst then
          match t with
          | .object false chk =>
            if chk then variantCheckLoop schema ems seenNonempty rest
            else .error (.branchCheckFailed v.name)
          | _ => .error (.branchCannotUse v.name)
        else .error (.branchNotValue v.name)
      else variantCheckLoop schema ems seenNonempty rest

/-- Python truthiness of the optional `_tag_name` string: `if self._tag_name:`
is false both for `None` and for the empty string. -/
def strTruthy : Option String → Bool
  | none => false
  | some s => !s.isEmpty

/-- `QAPISchemaVariants.check` (schema.py lines 655-723): resolve the tag
member, auto-fill a flat union's branches, reject an empty branch list, then
run the branch loop.  Returns the final state (`tag_member` set, variants
extended). -/
def variantsCheck (cname : String → String) (schema : List (String × UType))
    (seen : List (String × UMember)) (vin : UVariantsIn) :
    Except UErr UVariantsOut :=
  match (match vin.tagMember with
         | none =>
           match vin.tagName with
           | none => Except.error UErr.assertFailed
           | some tn => tagResolveFlat cname schema seen tn
         | some m => tagResolveSimple schema m) with
  | .error e => .error e
  | .ok (m, ems) =>
    let variants := if strTruthy vin.tagName then fillVariants ems vin.variants
                    else vin.variants
    if variants.isEmpty then .error .noBranches
    else
      match variantCheckLoop schema ems (!seen.isEmpty) variants with
      | .error e => .error e
      | .ok _ => .ok ⟨m, variants⟩

theorem variantsCheck_flat (cname : String → String) (schema : List (String × UType))
    (seen : List (String × UMember)) (tn : String) (vs : List UVariant) :
    variantsCheck cname schema seen ⟨some tn, none, vs⟩ =
      match tagResolveFlat cname schema seen tn with
      | .error e => .error e
      | .ok (m, ems) =>
        let variants := if strTruthy (some tn) then fillVariants ems vs else vs
        if variants.isEmpty then .error .noBranches
        else
          match variantCheckLoop schema ems (!seen.isEmpty) variants with
          | .error e => .error e
          | .ok _ => .ok ⟨m, variants⟩ := rfl

theorem tagResolveFlat_ok {cname : String → String} {schema : List (String × UType)}
    {seen : List (String × UMember)} {tn : String} {m : UMember}
    {ems : List (String × List String)}
    (h : tagResolveFlat cname schema seen tn = .ok (m, ems)) :
    alookup (cname tn) seen = some m ∧ m.name = tn ∧
      alookup m.typeName schema = some (.enum ems) ∧
      m.optional = false ∧ m.ifcond = [] := by
  unfold tagResolveFlat at h
  split at h
  · exact Except.noConfusion h
  · rename_i m' hl
    split at h
    · exact Except.noConfusion h
    · rename_i hname
      push_neg at hname
      split at h
      · rename_i ems' ht
        split at h
        · exact Except.noConfusion h
        · rename_i hopt
          split at h
          · exact Except.noConfusion h
          · rename_i hif
            push_neg at hif
            injection h with hpair
            obtain ⟨rfl, rfl⟩ : m' = m ∧ ems' = ems :=
              ⟨congrArg Prod.fst hpair, congrArg Prod.snd hpair⟩
            exact ⟨hl, hname, ht, by simpa using hopt, hif⟩
      · exact Except.noConfusion h

theorem variantCheckLoop_ok_names {schema : List (String × UType)}
    {ems : List (String × List String)} :
    ∀ vs : List UVariant, variantCheckLoop schema ems true vs = .ok () →
      ∀ v ∈ vs, v.name ∈ ems.map Prod.fst := by
  intro vs
  induction vs with
  | nil => intro _ v hv; cases hv
  | cons v rest ih =>
    intro h u hu
    simp only [variantCheckLoop] at h
    split at h
    · exact Except.noConfusion h
    · rename_i t hl
      split at h
      · split at h
        · rename_i hmem
          split at h
          · rename_i chk
            split at h
            · rcases List.mem_cons.mp hu with rfl | hu'
              · exact hmem
              · exact ih h u hu'
            · exact Except.noConfusion h
          · exact Except.noConfusion h
        · exact Except.noConfusion h
      · rename_i hfalse
        exact absurd trivial hfalse

theorem fillVariants_mem_fill {ems : List (String × List String)} {vs : List UVariant}
    {em : String × List String} (hm : em ∈ ems) (hnot : em.1 ∉ vs.map UVariant.name) :
    (⟨em.1, "q_empty", em.2⟩ : UVariant) ∈ fillVariants ems vs := by
  unfold fillVariants
  refine List.mem_append_right _ (List.mem_map.mpr ⟨em, List.mem_filter.mpr ⟨hm, ?_⟩, rfl⟩)
  simp only [Bool.not_eq_true', List.any_eq_false, decide_eq_true_eq]
  intro v hv hc
  exact hnot (hc ▸ List.mem_map_of_mem UVariant.name hv)

theorem alookup_some_nonempty {κ α : Type} [DecidableEq κ] {k : κ} {l : List (κ × α)}
    {a : α} (h : alookup k l = some a) : l.isEmpty = false := by
  cases l with
  | nil => cases h
  | cons p rest => rfl

/-- C1: whenever `QAPISchemaVariants.check` succeeds on a flat union (a
declared discriminator name, no pre-set tag member), the final branch names
are exactly the member names of the discriminator enum — every branch name
is an enum value (the per-branch rejection), every enum value appears as a
branch, the explicit branches are kept as a prefix, and every enum value not
explicitly covered was auto-filled with a branch of the empty object type
`q_empty` (carrying the enum member's condition).  The hypothesis `tn ≠ ""`
records that a declared discriminator is a non-empty string (the
`QAPISchemaVariants` constructor asserts `bool(tag_name)`). -/
theorem flat_union_branches_total (cname : String → String)
    (schema : List (String × UType)) (seen : List (String × UMember))
    (tn : String) (vs : List UVariant) (out : UVariantsOut)
    (htn : tn ≠ "")
    (h : variantsCheck cname schema seen ⟨some tn, none, vs⟩ = .ok out) :
    (∃ ems, alookup out.tagMember.typeName schema = some (UType.enum ems)) ∧
    ∀ ems, alookup out.tagMember.typeName schema = some (UType.enum ems) →
      (out.variants.map UVariant.name ⊆ ems.map Prod.fst ∧
       ems.map Prod.fst ⊆ out.variants.map UVariant.name ∧
       vs <+: out.variants ∧
       ∀ em ∈ ems, em.1 ∉ vs.map UVariant.name →
         (⟨em.1, "q_empty", em.2⟩ : UVariant) ∈ out.variants) := by
  rw [variantsCheck_flat] at h
  split at h
  · exact Except.noConfusion h
  · rename_i m ems hres
    obtain ⟨hl, hmname, ht, hopt, hif⟩ := tagResolveFlat_ok hres
    have hempty : tn.isEmpty = false := by
      cases he : tn.isEmpty
      · rfl
      · exact absurd (String.isEmpty_iff tn |>.mp he) htn
    simp only [strTruthy, hempty, Bool.not_false, if_true] at h
    split at h
    · exact Except.noConfusion h
    · rename_i hne
      split at h
      · exact Except.noConfusion h
      · rename_i u hloop
        injection h with hout
        subst hout
        have hseen : (!seen.isEmpty) = true := by
          rw [alookup_some_nonempty hl]
          decide
        rw [hseen] at hloop
        constructor
        · exact ⟨ems, ht⟩
        · intro ems' hems'
          have hee : ems' = ems := by
            have hsame : alookup m.typeName schema = some (UType.enum ems') := hems'
            rw [ht] at hsame
            injection hsame with hsame'
            injection hsame' with hsame''
            exact hsame''.symm
          subst hee
          refine ⟨?_, ?_, ?_, ?_⟩
          · intro n hn
            obtain ⟨v, hv, rfl⟩ := List.mem_map.mp hn
            exact variantCheckLoop_ok_names _ hloop v hv
          · intro n hn
            obtain ⟨em, hem, rfl⟩ := List.mem_map.mp hn
            by_cases hvn : em.1 ∈ vs.map UVariant.name
            · show em.1 ∈ (fillVariants ems' vs).map UVariant.name
              unfold fillVariants
              rw [List.map_append]
              exact List.mem_append_left _ hvn
            · exact List.mem_map_of_mem UVariant.name (fillVariants_mem_fill hem hvn)
          · exact List.prefix_append vs _
          · intro em hem hnot
            exact fillVariants_mem_fill hem hnot

/-- Witness for C1: a flat union over enum `E = {a, b}` with one explicit
branch `a` of object type `Ta`; after `check`, branch `b` has been
auto-filled with `q_empty` and the branch names are exactly `{a, b}`. -/
theorem flat_union_branches_total_witness :
    ([⟨"a", "Ta", []⟩, ⟨"b", "q_empty", []⟩] : List UVariant).map UVariant.name ⊆
        ([("a", []), ("b", [])] : List (String × List String)).map Prod.fst ∧
      ([("a", []), ("b", [])] : List (String × List String)).map Prod.fst ⊆
        ([⟨"a", "Ta", []⟩, ⟨"b", "q_empty", []⟩] : List UVariant).map UVariant.name ∧
      [(⟨"a", "Ta", []⟩ : UVariant)] <+: [⟨"a", "Ta", []⟩, ⟨"b", "q_empty", []⟩] ∧
      ∀ em ∈ ([("a", []), ("b", [])] : List (String × List String)),
        em.1 ∉ [(⟨"a", "Ta", []⟩ : UVariant)].map UVariant.name →
          (⟨em.1, "q_empty", em.2⟩ : UVariant) ∈
            [(⟨"a", "Ta", []⟩ : UVariant), ⟨"b", "q_empty", []⟩] :=
  (flat_union_branches_total (fun s => s)
      [("E", .enum [("a", []), ("b", [])]), ("Ta", .object false true),
        ("q_empty", .object false true)]
      [("tag", ⟨"tag", "E", false, []⟩)]
      "tag" [⟨"a", "Ta", []⟩]
      ⟨⟨"tag", "E", false, []⟩, [⟨"a", "Ta", []⟩, ⟨"b", "q_empty", []⟩]⟩
      (by decide) rfl).2
    [("a", []), ("b", [])] rfl

/-- C5: whenever `QAPISchemaVariants.check` succeeds on a flat union, the
declared discriminator resolved (under `c_name`) to a member of the seen
base members carrying exactly the declared name, that member's type is an
enum type, the member is not optional, and it carries no condition — so
violating any of these four requirements makes validation fail (and each of
the corresponding errors names the discriminator). -/
theorem flat_union_discriminator_checks (cname : String → String)
    (schema : List (String × UType)) (seen : List (String × UMember))
    (tn : String) (vs : List UVariant) (out : UVariantsOut)
    (h : variantsCheck cname schema seen ⟨some tn, none, vs⟩ = .ok out) :
    alookup (cname tn) seen = some out.tagMember ∧
    out.tagMember.name = tn ∧
    (∃ ems, alookup out.tagMember.typeName schema = some (UType.enum ems)) ∧
    out.tagMember.optional = false ∧
    out.tagMember.ifcond = [] := by
  rw [variantsCheck_flat] at h
  split at h
  · exact Except.noConfusion h
  · rename_i m ems hres
    obtain ⟨hl, hmname, ht, hopt, hif⟩ := tagResolveFlat_ok hres
    have hfin : ∀ variants : List UVariant,
        (if variants.isEmpty then Except.error UErr.noBranches
         else
           match variantCheckLoop schema ems (!seen.isEmpty) variants with
           | .error e => .error e
           | .ok _ => .ok ⟨m, variants⟩) = .ok out →
        alookup (cname tn) seen = some out.tagMember ∧ out.tagMember.name = tn ∧
          (∃ ems, alookup out.tagMember.typeName schema = some (UType.enum ems)) ∧
          out.tagMember.optional = false ∧ out.tagMember.ifcond = [] := by
      intro variants h'
      split at h'
      · exact Except.noConfusion h'
      · split at h'
        · exact Except.noConfusion h'
        · injection h' with hout
          subst hout
          exact ⟨hl, hmname, ⟨ems, ht⟩, hopt, hif⟩
    split at h
    · exact hfin _ h
    · exact hfin _ h

/-- Witness for C5: a flat union over enum `E2 = {x}` whose declared
discriminator `disc` is a non-optional, unconditional enum-typed member of
the base. -/
theorem flat_union_discriminator_checks_witness :
    alookup "disc" [("disc", (⟨"disc", "E2", false, []⟩ : UMember))] =
        some (⟨"disc", "E2", false, []⟩ : UMember) ∧
      (⟨"disc", "E2", false, []⟩ : UMember).name = "disc" ∧
      (∃ ems, alookup (⟨"disc", "E2", false, []⟩ : UMember).typeName
          [("E2", UType.enum [("x", [])]), ("Tx", UType.object false true)] =
            some (UType.enum ems)) ∧
      (⟨"disc", "E2", false, []⟩ : UMember).optional = false ∧
      (⟨"disc", "E2", false, []⟩ : UMember).ifcond = [] := by
  have h := flat_union_discriminator_checks (fun s => s)
    [("E2", UType.enum [("x", [])]), ("Tx", UType.object false true)]
    [("disc", ⟨"disc", "E2", false, []⟩)]
    "disc" [⟨"x", "Tx", []⟩]
    ⟨⟨"disc", "E2", false, []⟩, [⟨"x", "Tx", []⟩]⟩ rfl
  exact h

/-! ## C10: duplicate keys in object literals (`QAPISchemaParser.get_members`)

The recursive-descent parser is embedded at the token level: `accept`
(parser.py lines 194-290) delivers a stream of lexemes, modelled as a list
of tokens of which the head is the current one. -/

/-- The lexemes `accept` produces: the single-character lexemes `{ } : , [ ]`,
strings, and the booleans. -/
inductive Tok
  | lbrace | rbrace | colon | comma | lsqb | rsqb
  | str (s : String)
  | bool (b : Bool)
  deriving DecidableEq, Repr

/-- The values of the restricted grammar (`_Value`, parser.py line 35):
objects (ordered key/value lists), arrays, strings, booleans. -/
inductive PVal
  | obj (l : List (String × PVal))
  | arr (l : List PVal)
  | str (s : String)
  | bool (b : Bool)

/-- Parse errors of the expression grammar; `dupKey` is
"duplicate key '%s'" (parser.py line 308), `expected` the various
"expected ..." errors, `outOfFuel` the artificial recursion bound. -/
inductive TokErr
  | dupKey (k : String)
  | expected (what : String)
  | outOfFuel
  deriving DecidableEq, Repr

mutual

/-- `QAPISchemaParser.get_expr` (parser.py lines 336-352). -/
def getExpr (nested : Bool) : Nat → List Tok → Except TokErr (PVal × List Tok)
  | 0, _ => .error .outOfFuel
  | fuel+1, toks =>
    if toks.head? ≠ some .lbrace ∧ ¬nested then .error (.expected "'\x7b'")
    else
      match toks with
      | .lbrace :: rest =>
        match getMembers fuel rest with
        | .error e => .error e
        | .ok (obj, rest') => .ok (.obj obj, rest')
      | .lsqb :: rest =>
        match getValues fuel rest with
        | .error e => .error e
        | .ok (vals, rest') => .ok (.arr vals, rest')
      | .str s :: rest => .ok (.str s, rest)
      | .bool b :: rest => .ok (.bool b, rest)
      | _ => .error (.expected "'\x7b', '[', string, or boolean")

/-- `QAPISchemaParser.get_members` (parser.py lines 292-317), entered after
the opening `{` has been consumed: an empty object, or a key/value list. -/
def getMembers : Nat → List Tok → Except TokErr (List (String × PVal) × List Tok)
  | 0, _ => .error .outOfFuel
  | fuel+1, toks =>
    match toks with
    | .rbrace :: rest => .ok ([], rest)
    | .str _ :: _ => getMembersLoop fuel [] toks
    | _ => .error (.expected "string or '\x7d'")

/-- The `while True` loop of `get_members` (parser.py lines 299-317): consume
`key`, `:` and a value; reject a key already present ("duplicate key");
continue after `,` only when a string follows. -/
def getMembersLoop : Nat → List (String × PVal) → List Tok →
    Except TokErr (List (String × PVal) × List Tok)
  | 0, _, _ => .error .outOfFuel
  | fuel+1, acc, toks =>
    match toks with
    | .str key :: rest =>
      match rest with
      | .colon :: rest2 =>
        if key ∈ acc.map Prod.fst then .error (.dupKey key)
        else
          match getExpr true fuel rest2 with
          | .error e => .error e
          | .ok (v, rest3) =>
            match rest3 with
            | .rbrace :: r => .ok (acc ++ [(key, v)], r)
            | .comma :: r2 =>
              match r2 with
              | .str _ :: _ => getMembersLoop fuel (acc ++ [(key, v)]) r2
              | _ => .error (.expected "string")
            | _ => .error (.expected "',' or '\x7d'")
      | _ => .error (.expected "':'")
    | _ => .error (.expected "string")

/-- `QAPISchemaParser.get_values` (parser.py lines 319-334). -/
def getValues : Nat → List Tok → Except TokErr (List PVal × List Tok)
  | 0, _ => .error .outOfFuel
  | fuel+1, toks =>
    match toks with
    | .rsqb :: rest => .ok ([], rest)
    | .lbrace :: _ | .lsqb :: _ | .str _ :: _ | .bool _ :: _ => getValuesLoop fuel toks
    | _ => .error (.expected "'\x7b', '[', ']', string, or boolean")

/-- The `while True` loop of `get_values` (parser.py lines 327-334). -/
def getValuesLoop : Nat → List Tok → Except TokErr (List PVal × List Tok)
  | 0, _ => .error .outOfFuel
  | fuel+1, toks =>
    match getExpr true fuel toks with
    | .error e => .error e
    | .ok (v, rest) =>
      match rest with
      | .rsqb :: r => .ok ([v], r)
      | .comma :: r2 =>
        match getValuesLoop fuel r2 with
        | .error e => .error e
        | .ok (vs, r') => .ok (v :: vs, r')
      | _ => .error (.expected "',' or ']'")

end

theorem getMembersLoop_keys_nodup :
    ∀ fuel (acc : List (String × PVal)) toks obj rest,
      (acc.map Prod.fst).Nodup →
      getMembersLoop fuel acc toks = .ok (obj, rest) →
      (obj.map Prod.fst).Nodup := by
  intro fuel
  induction fuel with
  | zero => intro acc toks obj rest _ h; exact Except.noConfusion h
  | succ fuel ih =>
    intro acc toks obj rest hacc h
    simp only [getMembersLoop] at h
    split at h
    · rename_i key rest1
      split at h
      · rename_i rest2
        split at h
        · exact Except.noConfusion h
        · rename_i hnotin
          split at h
          · exact Except.noConfusion h
          · rename_i v rest3 hexpr
            have hacc' : ((acc ++ [(key, v)]).map Prod.fst).Nodup := by
              rw [List.map_append, List.nodup_append]
              exact ⟨hacc, List.nodup_singleton _,
                fun a ha hb => by
                  simp only [List.map_cons, List.map_nil, List.mem_singleton] at hb
                  exact hnotin (hb ▸ ha)⟩
            split at h
            · injection h with h1
              injection h1 with h2 h3
              exact h2 ▸ hacc'
            · split at h
              · exact ih _ _ _ _ hacc' h
              · exact Except.noConfusion h
            · exact Except.noConfusion h
      · exact Except.noConfusion h
    · exact Except.noConfusion h

/-- C10: every object literal the parser accepts has pairwise-distinct keys —
`get_members` returns only key lists without duplicates — and a key that
occurs twice in the same object literal is rejected with the
"duplicate key" error. -/
theorem parse_object_distinct_keys :
    (∀ fuel toks obj rest, getMembers fuel toks = .ok (obj, rest) →
      (obj.map Prod.fst).Nodup) ∧
    getMembers 9 [.str "k", .colon, .str "v", .comma,
                  .str "k", .colon, .str "w", .rbrace]
      = .error (.dupKey "k") := by
  constructor
  · intro fuel toks obj rest h
    match fuel with
    | 0 => exact Except.noConfusion h
    | fuel+1 =>
      simp only [getMembers] at h
      split at h
      · injection h with h1
        injection h1 with h2 h3
        subst h2
        exact List.nodup_nil
      · exact getMembersLoop_keys_nodup fuel [] _ obj rest List.nodup_nil h
      · exact Except.noConfusion h
  · rfl

/-- Witness for C10: a one-member object parses and its key list `["a"]` is
duplicate-free. -/
theorem parse_object_distinct_keys_witness :
    (([("a", PVal.str "v")] : List (String × PVal)).map Prod.fst).Nodup :=
  parse_object_distinct_keys.1 5 [.str "a", .colon, .str "v", .rbrace]
    [("a", PVal.str "v")] [] rfl

/-! ## C4: include cycles and re-inclusion (`QAPISchemaParser._include`)

The recursive include machinery of `QAPISchemaParser` (parser.py lines
73-105, 107-159, 177-192) is embedded over an abstract file system mapping
file names to lists of top-level items.  File identity is by name, standing
for `os.path.abspath` identity; documentation blocks travel with the
expressions they precede and need no separate modelling.  `chain` is the
`info` parent chain (the current file consed on its includers), `included`
the set `self._included` shared by parent and child parsers (threaded
through and returned, mirroring the shared mutable set).  The fuel argument
only bounds recursion depth; it is decremented on every recursive call. -/

/-- A top-level item of a file: an include directive or a definition. -/
inductive Item
  | incl (f : String)
  | defn (d : String)
  deriving DecidableEq, Repr

/-- A parsed expression tagged with the file (`info.fname`) it came from:
the `{'include': ...}` marker that `_parse` appends before splicing, or a
definition expression. -/
inductive OutExpr
  | marker (src f : String)
  | defnE (src d : String)
  deriving DecidableEq, Repr

/-- The source file an output expression is tagged with. -/
def OutExpr.src : OutExpr → String
  | .marker s _ => s
  | .defnE s _ => s

/-- Parser-level errors: "inclusion loop" (parser.py line 185), the wrapped
`IOError` (lines 97-104), and the artificial recursion bound. -/
inductive PErr
  | inclusionLoop (f : String)
  | missingFile (f : String)
  | outOfFuel
  deriving DecidableEq, Repr

mutual

/-- `QAPISchemaParser.__init__` (parser.py lines 73-105): record the file in
the shared `_included` set, read its body, and parse it with the file pushed
onto the `info` chain.  Returns the parsed expressions and the final
`_included` set. -/
def parseFile (fs : List (String × List Item)) :
    Nat → String → List String → List String →
    Except PErr (List OutExpr × List String)
  | 0, _, _, _ => .error .outOfFuel
  | fuel+1, fname, chain, included =>
    match alookup fname fs with
    | none => .error (.missingFile fname)
    | some body => parseItems fs fuel fname (fname :: chain) body (fname :: included)

/-- The expression loop of `QAPISchemaParser._parse` (lines 120-159)
restricted to what C4 concerns, together with `_include` (lines 177-192):
a definition is appended; an include first appends its marker expression,
then raises "inclusion loop" if the file is on the `info` chain, is skipped
silently if the file is in `_included`, and is otherwise parsed recursively
with its expressions spliced in before parsing continues. -/
def parseItems (fs : List (String × List Item)) :
    Nat → String → List String → List Item → List String →
    Except PErr (List OutExpr × List String)
  | 0, _, _, _, _ => .error .outOfFuel
  | _+1, _, _, [], included => .ok ([], included)
  | fuel+1, src, chain, .defn d :: rest, included =>
    match parseItems fs fuel src chain rest included with
    | .error e => .error e
    | .ok (out, inc') => .ok (.defnE src d :: out, inc')
  | fuel+1, src, chain, .incl f :: rest, included =>
    if f ∈ chain then .error (.inclusionLoop f)
    else if f ∈ included then
      match parseItems fs fuel src chain rest included with
      | .error e => .error e
      | .ok (out, inc') => .ok (.marker src f :: out, inc')
    else
      match parseFile fs fuel f chain included with
      | .error e => .error e
      | .ok (sub, inc1) =>
        match parseItems fs fuel src chain rest inc1 with
        | .error e => .error e
        | .ok (out, inc2) => .ok (.marker src f :: (sub ++ out), inc2)

end

/-- The expressions file `src` itself contributes for a body: one tagged
output expression per item. -/
def renderBody (src : String) (items : List Item) : List OutExpr :=
  items.map fun it =>
    match it with
    | .defn d => .defnE src d
    | .incl f => .marker src f

/-- The expressions file `F` contributes when it is parsed. -/
def renderFile (fs : List (String × List Item)) (F : String) : List OutExpr :=
  match alookup F fs with
  | none => []
  | some body => renderBody F body

/-- The output expressions tagged with file `F`. -/
def tagFilter (F : String) (out : List OutExpr) : List OutExpr :=
  out.filter fun e => e.src = F

theorem tagFilter_nil (F : String) : tagFilter F [] = [] := rfl

theorem tagFilter_cons (F : String) (x : OutExpr) (l : List OutExpr) :
    tagFilter F (x :: l) =
      if x.src = F then x :: tagFilter F l else tagFilter F l := by
  by_cases h : x.src = F <;> simp [tagFilter, h]

theorem tagFilter_append (F : String) (a b : List OutExpr) :
    tagFilter F (a ++ b) = tagFilter F a ++ tagFilter F b := by
  simp [tagFilter, List.filter_append]

theorem parseItems_nil (fs : List (String × List Item)) (fuel : Nat) (src : String)
    (chain included : List String) :
    parseItems fs (fuel + 1) src chain [] included = .ok ([], included) := rfl

theorem parseItems_incl (fs : List (String × List Item)) (fuel : Nat) (src : String)
    (chain included : List String) (f : String) (rest : List Item) :
    parseItems fs (fuel + 1) src chain (.incl f :: rest) included =
      (if f ∈ chain then .error (.inclusionLoop f)
       else if f ∈ included then
         match parseItems fs fuel src chain rest included with
         | .error e => .error e
         | .ok (out, inc') => .ok (.marker src f :: out, inc')
       else
         match parseFile fs fuel f chain included with
         | .error e => .error e
         | .ok (sub, inc1) =>
           match parseItems fs fuel src chain rest inc1 with
           | .error e => .error e
           | .ok (out, inc2) => .ok (.marker src f :: (sub ++ out), inc2)) := rfl

theorem parse_spec (fs : List (String × List Item)) :
    ∀ fuel,
      (∀ fname chain included out inc', fname ∉ included →
        parseFile fs fuel fname chain included = .ok (out, inc') →
        ((∀ x ∈ included, x ∈ inc') ∧ fname ∈ inc' ∧
          ∀ F, tagFilter F out =
            if F ∈ inc' ∧ F ∉ included then renderFile fs F else [])) ∧
      (∀ src chain items included out inc', src ∈ included →
        parseItems fs fuel src chain items included = .ok (out, inc') →
        ((∀ x ∈ included, x ∈ inc') ∧
          ∀ F, tagFilter F out =
            if F = src then renderBody src items
            else if F ∈ inc' ∧ F ∉ included then renderFile fs F else [])) := by
  intro fuel
  induction fuel with
  | zero =>
    constructor
    · intro fname chain included out inc' hnot h
      exact Except.noConfusion h
    · intro src chain items included out inc' hsrc h
      exact Except.noConfusion h
  | succ fuel ih =>
    obtain ⟨ihf, ihi⟩ := ih
    constructor
    · intro fname chain included out inc' hnot h
      simp only [parseFile] at h
      split at h
      · exact Except.noConfusion h
      · rename_i body hb
        obtain ⟨hmono, hfilt⟩ :=
          ihi fname (fname :: chain) body (fname :: included) out inc'
            (List.mem_cons_self _ _) h
        have hfname : fname ∈ inc' := hmono fname (List.mem_cons_self _ _)
        refine ⟨fun x hx => hmono x (List.mem_cons_of_mem _ hx), hfname, fun F => ?_⟩
        rw [hfilt F]
        by_cases hF : F = fname
        · subst hF
          rw [if_pos rfl, if_pos ⟨hfname, hnot⟩]
          simp only [renderFile, hb]
        · rw [if_neg hF]
          by_cases hc : F ∈ inc' ∧ F ∉ included
          · have hF2 : F ∉ fname :: included := by
              intro hmem
              rcases List.mem_cons.mp hmem with rfl | hmem
              · exact hF rfl
              · exact hc.2 hmem
            rw [if_pos ⟨hc.1, hF2⟩, if_pos hc]
          · have hne : ¬(F ∈ inc' ∧ F ∉ fname :: included) := by
              rintro ⟨h1, h2⟩
              exact hc ⟨h1, fun hm => h2 (List.mem_cons_of_mem _ hm)⟩
            rw [if_neg hne, if_neg hc]
    · intro src chain items included out inc' hsrc h
      cases items with
      | nil =>
        rw [parseItems_nil] at h
        injection h with h1
        injection h1 with h2 h3
        subst h2; subst h3
        refine ⟨fun x hx => hx, fun F => ?_⟩
        by_cases hF : F = src
        · simp [hF, tagFilter, renderBody]
        · simp only [tagFilter_nil, if_neg hF]
          split_ifs with hc
          · exact absurd hc.1 hc.2
          · rfl
      | cons it rest =>
        cases it with
        | defn d =>
          simp only [parseItems] at h
          split at h
          · exact Except.noConfusion h
          · rename_i out1 inc1 heq
            injection h with h1
            injection h1 with h2 h3
            subst h2; subst h3
            obtain ⟨hmono, hfilt⟩ := ihi src chain rest included out1 inc1 hsrc heq
            refine ⟨hmono, fun F => ?_⟩
            rw [tagFilter_cons, hfilt]
            by_cases hF : F = src
            · subst hF
              simp [OutExpr.src, renderBody]
            · have hsF : ¬((OutExpr.defnE src d).src = F) := by
                simp only [OutExpr.src]
                exact fun hc => hF hc.symm
              rw [if_neg hsF, if_neg hF, if_neg hF]
        | incl f =>
          rw [parseItems_incl] at h
          split at h
          · exact Except.noConfusion h
          · rename_i hchain
            split at h
            · rename_i hin
              split at h
              · exact Except.noConfusion h
              · rename_i out1 inc1 heq
                injection h with h1
                injection h1 with h2 h3
                subst h2; subst h3
                obtain ⟨hmono, hfilt⟩ := ihi src chain rest included out1 inc1 hsrc heq
                refine ⟨hmono, fun F => ?_⟩
                rw [tagFilter_cons, hfilt]
                by_cases hF : F = src
                · subst hF
                  simp [OutExpr.src, renderBody]
                · have hsF : ¬((OutExpr.marker src f).src = F) := by
                    simp only [OutExpr.src]
                    exact fun hc => hF hc.symm
                  rw [if_neg hsF, if_neg hF, if_neg hF]
            · rename_i hnotin
              split at h
              · exact Except.noConfusion h
              · rename_i sub inc1 heqf
                split at h
                · exact Except.noConfusion h
                · rename_i out1 inc2 heqr
                  injection h with h1
                  injection h1 with h2 h3
                  subst h2; subst h3
                  obtain ⟨hsubmono, hfin, hsubfilt⟩ :=
                    ihf f chain included sub inc1 hnotin heqf
                  obtain ⟨hmono2, hrestfilt⟩ :=
                    ihi src chain rest inc1 out1 inc2 (hsubmono src hsrc) heqr
                  refine ⟨fun x hx => hmono2 x (hsubmono x hx), fun F => ?_⟩
                  rw [tagFilter_cons, tagFilter_append, hsubfilt, hrestfilt]
                  by_cases hF : F = src
                  · subst hF
                    have hc1 : ¬(F ∈ inc1 ∧ F ∉ included) := fun hc => hc.2 hsrc
                    rw [if_neg hc1, if_pos rfl, if_pos rfl]
                    simp [OutExpr.src, renderBody]
                  · have hsF : ¬((OutExpr.marker src f).src = F) := by
                      simp only [OutExpr.src]
                      exact fun hc => hF hc.symm
                    rw [if_neg hsF, if_neg hF, if_neg hF]
                    by_cases hc1 : F ∈ inc1 ∧ F ∉ included
                    · rw [if_pos hc1]
                      have hne2 : ¬(F ∈ inc2 ∧ F ∉ inc1) := fun hc => hc.2 hc1.1
                      rw [if_neg hne2, if_pos ⟨hmono2 F hc1.1, hc1.2⟩,
                        List.append_nil]
                    · rw [if_neg hc1]
                      by_cases hinc : F ∈ included
                      · have h1 : ¬(F ∈ inc2 ∧ F ∉ inc1) :=
                          fun hc => hc.2 (hsubmono F hinc)
                        have h2 : ¬(F ∈ inc2 ∧ F ∉ included) := fun hc => hc.2 hinc
                        rw [if_neg h1, if_neg h2]
                        rfl
                      · have hni1 : F ∉ inc1 := fun hc => hc1 ⟨hc, hinc⟩
                        by_cases hi2 : F ∈ inc2
                        · rw [if_pos ⟨hi2, hni1⟩, if_pos ⟨hi2, hinc⟩]
                          rfl
                        · have h1 : ¬(F ∈ inc2 ∧ F ∉ inc1) := fun hc => hi2 hc.1
                          have h2 : ¬(F ∈ inc2 ∧ F ∉ included) := fun hc => hi2 hc.1
                          rw [if_neg h1, if_neg h2]
                          rfl

/-- C4: an include directive whose target is already on the current parser's
`info` parent chain (direct or indirect self-inclusion) raises the fatal
"inclusion loop" error; an include whose target was already completely
parsed elsewhere (`_included`) is silently skipped — only the include marker
expression is appended, nothing is spliced and the `_included` set is
unchanged; and in a whole compilation from a root file, every file's
expressions appear either exactly once or not at all in the output, so no
entity is duplicated by re-inclusion. -/
theorem include_loop_and_idempotence (fs : List (String × List Item)) :
    (∀ fuel src chain f rest included, f ∈ chain →
        parseItems fs (fuel + 1) src chain (.incl f :: rest) included =
          .error (.inclusionLoop f)) ∧
    (∀ fuel src chain f rest included, f ∉ chain → f ∈ included →
        parseItems fs (fuel + 1) src chain (.incl f :: rest) included =
          match parseItems fs fuel src chain rest included with
          | .error e => .error e
          | .ok (out, inc') => .ok (.marker src f :: out, inc')) ∧
    (∀ fuel fname out inc',
        parseFile fs fuel fname [] [] = .ok (out, inc') →
        ∀ F, tagFilter F out = renderFile fs F ∨ tagFilter F out = []) := by
  refine ⟨?_, ?_, ?_⟩
  · intro fuel src chain f rest included hf
    rw [parseItems_incl, if_pos hf]
  · intro fuel src chain f rest included hnf hi
    rw [parseItems_incl, if_neg hnf, if_pos hi]
  · intro fuel fname out inc' h F
    obtain ⟨-, -, hfilt⟩ :=
      (parse_spec fs fuel).1 fname [] [] out inc' (List.not_mem_nil _) h
    rw [hfilt F]
    split_ifs
    · exact Or.inl rfl
    · exact Or.inr rfl

/-- Witness for C4, over the file system `a = [include b, include b, defn A]`,
`b = [defn B]`: an include of a file on the chain errors with "inclusion
loop", a re-include of an already parsed file only appends the marker, and in
the full parse of `a` the expressions of `b` appear exactly once even though
`b` is included twice. -/
theorem include_loop_and_idempotence_witness :
    (parseItems [("a", [Item.incl "b", Item.incl "b", Item.defn "A"]),
          ("b", [Item.defn "B"])] 3 "a" ["b", "a"] [Item.incl "a"] ["a", "b"] =
        .error (.inclusionLoop "a")) ∧
    (parseItems [("a", [Item.incl "b", Item.incl "b", Item.defn "A"]),
          ("b", [Item.defn "B"])] 3 "a" ["a"] [Item.incl "b"] ["b", "a"] =
        .ok ([OutExpr.marker "a" "b"], ["b", "a"])) ∧
    (tagFilter "b" [OutExpr.marker "a" "b", OutExpr.defnE "b" "B",
          OutExpr.marker "a" "b", OutExpr.defnE "a" "A"] =
        renderFile [("a", [Item.incl "b", Item.incl "b", Item.defn "A"]),
          ("b", [Item.defn "B"])] "b" ∨
      tagFilter "b" [OutExpr.marker "a" "b", OutExpr.defnE "b" "B",
          OutExpr.marker "a" "b", OutExpr.defnE "a" "A"] = []) := by
  refine ⟨?_, ?_, ?_⟩
  · exact (include_loop_and_idempotence _).1 2 "a" ["b", "a"] "a" [] ["a", "b"]
      (by decide)
  · rw [(include_loop_and_idempotence _).2.1 2 "a" ["a"] "b" [] ["b", "a"]
      (by decide) (by decide)]
    rfl
  · exact (include_loop_and_idempotence
      [("a", [Item.incl "b", Item.incl "b", Item.defn "A"]),
        ("b", [Item.defn "B"])]).2.2 9 "a"
      [OutExpr.marker "a" "b", OutExpr.defnE "b" "B",
        OutExpr.marker "a" "b", OutExpr.defnE "a" "A"] ["b", "a"] rfl "b"

/-! ## C7 and C9: the semantic model builder (`QAPISchema._def_*`)

The entity-construction half of `QAPISchema` (schema.py lines 977-1345) is
embedded as state-passing over the entity list.  Modules, documentation and
the check phase are not involved in these claims; member features beyond
their names are not consulted by them. -/

/-- An entity's condition as stored in `_ifcond`: either the raw list form,
or — for simple-union wrapper types — a reference to the wrapped type
object (schema.py lines 516-519, 1247-1249), compared by object identity,
which by uniqueness of names is name equality. -/
inductive IfCond
  | conds (l : List String)
  | typeRef (name : String)
  deriving DecidableEq, Repr

/-- `ifcond or []` (schema.py line 72): `None` becomes the empty list. -/
def normIf : Option IfCond → IfCond
  | none => .conds []
  | some c => c

/-- A member as `QAPISchemaObjectTypeMember.__init__` records it (schema.py
lines 806-823). -/
structure MemberDef where
  name : String
  typeName : String
  optional : Bool
  ifcond : List String
  features : List String
  deriving DecidableEq, Repr

/-- A union branch (`QAPISchemaVariant`). -/
structure UnionVariantDef where
  name : String
  typeName : String
  ifcond : List String
  deriving DecidableEq, Repr

/-- A `QAPISchemaVariants` value as built by `_def_union_type`. -/
structure VariantsDef where
  tagName : Option String
  tagMember : Option MemberDef
  variants : List UnionVariantDef
  deriving DecidableEq, Repr

/-- The named entities the builder creates for these claims (commands,
events and include markers play no part in C7/C9). -/
inductive Entity
  | builtin (name : String) (jsonType : String) (cType : String)
  | enumT (name : String) (ifcond : IfCond) (members : List (String × List String))
      (pfx : Option String)
  | arrayT (name : String) (elementType : String)
  | objectT (name : String) (ifcond : IfCond) (base : Option String)
      (members : List MemberDef) (variants : Option VariantsDef)
  deriving DecidableEq, Repr

/-- The unique name of an entity. -/
def Entity.name : Entity → String
  | .builtin n _ _ => n
  | .enumT n _ _ _ => n
  | .arrayT n _ => n
  | .objectT n _ _ _ _ => n

/-- The builder state: `_entity_list` in definition order (`_entity_dict` is
recovered by name lookup, names being unique by construction). -/
structure SchemaSt where
  entities : List Entity
  deriving DecidableEq, Repr

/-- `lookup_entity` (schema.py lines 1022-1029) without the type filter:
names are unique, so the first match is the only one. -/
def SchemaSt.lookupEntity (st : SchemaSt) (name : String) : Option Entity :=
  st.entities.find? (fun e => e.name = name)

/-- Builder errors: "'%s' is already defined" (schema.py lines 1003-1011)
and `assert` failures. -/
inductive BErr
  | alreadyDefined (name : String)
  | assertFailed
  deriving DecidableEq, Repr

/-- `_def_entity` (schema.py lines 995-1012): reject a name that is already
defined, else append. -/
def defEntity (st : SchemaSt) (e : Entity) : Except BErr SchemaSt :=
  match st.lookupEntity e.name with
  | some _ => .error (.alreadyDefined e.name)
  | none => .ok ⟨st.entities ++ [e]⟩

/-- A type reference in an expression: a plain name or the one-element list
form denoting an array. -/
inductive TypeRef
  | tname (s : String)
  | listOf (elem : String)
  deriving DecidableEq, Repr

/-- `_make_array_type` (schema.py lines 1142-1148): the array type
`<element>List` is created only once. -/
def makeArrayType (st : SchemaSt) (elementType : String) : String × SchemaSt :=
  let name := elementType ++ "List"
  match st.lookupEntity name with
  | some _ => (name, st)
  | none => (name, ⟨st.entities ++ [.arrayT name elementType]⟩)

/-- `_make_implicit_object_type` (schema.py lines 1150-1178): nothing for an
empty member list; reuse of an existing `q_obj_<name>-<role>` object type is
guarded by `assert (ifcond or []) == typ._ifcond` — conditions are compared
for exact equality, never merged; otherwise the object type is defined. -/
def makeImplicitObjectType (st : SchemaSt) (name : String) (ifcond : Option IfCond)
    (role : String) (members : List MemberDef) :
    Except BErr (Option String × SchemaSt) :=
  if members.isEmpty then .ok (none, st)
  else
    let tname := "q_obj_" ++ name ++ "-" ++ role
    match st.lookupEntity tname with
    | some (.objectT _ stored _ _ _) =>
      if normIf ifcond = stored then .ok (some tname, st)
      else .error .assertFailed
    | some _ =>
      -- `lookup_entity(name, QAPISchemaObjectType)` filters non-object
      -- entities to None; `_def_entity` then reports the name clash.
      .error (.alreadyDefined tname)
    | none =>
      match defEntity st (.objectT tname (normIf ifcond) none members none) with
      | .error e => .error e
      | .ok st' => .ok (some tname, st')

/-- `_make_member` (schema.py lines 1193-1207): strip a leading `*` into the
optional flag, materialize a one-element list type into an array type. -/
def makeMember (st : SchemaSt) (name : String) (typ : TypeRef)
    (ifcond : Option (List String)) (features : List String) :
    MemberDef × SchemaSt :=
  let optional := match name.data with
    | '*' :: _ => true
    | _ => false
  let name := match name.data with
    | '*' :: rest => String.mk rest
    | _ => name
  match typ with
  | .tname t => (⟨name, t, optional, ifcond.getD [], features⟩, st)
  | .listOf e =>
    let (t, st') := makeArrayType st e
    (⟨name, t, optional, ifcond.getD [], features⟩, st')

/-- `_make_simple_variant` (schema.py lines 1239-1250): materialize arrays,
wrap the payload type in an implicit `q_obj_<type>-wrapper` object with one
member `data`, passing the wrapped type object as the wrapper's condition. -/
def makeSimpleVariant (st : SchemaSt) (case : String) (typ : TypeRef)
    (ifcond : Option (List String)) : Except BErr (UnionVariantDef × SchemaSt) :=
  let (t, st1) : String × SchemaSt :=
    match typ with
    | .listOf e => makeArrayType st e
    | .tname t => (t, st)
  let wrapIf : Option IfCond :=
    match st1.lookupEntity t with
    | some _ => some (.typeRef t)
    | none => none
  let (m, st2) := makeMember st1 "data" (.tname t) none []
  match makeImplicitObjectType st2 t wrapIf "wrapper" [m] with
  | .error e => .error e
  | .ok (some wname, st3) => .ok (⟨case, wname, ifcond.getD []⟩, st3)
  | .ok (none, _) => .error .assertFailed

/-- `_make_simple_variant` folded over a union's `data` entries in order. -/
def makeSimpleVariants (st : SchemaSt) :
    List (String × TypeRef × Option (List String)) →
    Except BErr (List UnionVariantDef × SchemaSt)
  | [] => .ok ([], st)
  | (k, t, i) :: rest =>
    match makeSimpleVariant st k t i with
    | .error e => .error e
    | .ok (v, st1) =>
      match makeSimpleVariants st1 rest with
      | .error e => .error e
      | .ok (vs, st2) => .ok (v :: vs, st2)

/-- `_make_variant` (schema.py lines 1231-1237) over a flat union's `data`
entries; `QAPISchemaObjectTypeMember.__init__` asserts the type is a plain
string, so the list form fails the assertion. -/
def makeVariants :
    List (String × TypeRef × Option (List String)) →
    Except BErr (List UnionVariantDef)
  | [] => .ok []
  | (k, .tname t, i) :: rest =>
    match makeVariants rest with
    | .error e => .error e
    | .ok vs => .ok (⟨k, t, i.getD []⟩ :: vs)
  | (_, .listOf _, _) :: _ => .error .assertFailed

/-- `_make_implicit_enum_type` (schema.py lines 1129-1140): define
`<name>Kind` with the given members and return its name. -/
def makeImplicitEnumType (st : SchemaSt) (name : String)
    (ifcond : Option (List String)) (values : List (String × List String)) :
    Except BErr (String × SchemaSt) :=
  let ename := name ++ "Kind"
  match defEntity st (.enumT ename (.conds (ifcond.getD [])) values none) with
  | .error e => .error e
  | .ok st' => .ok (ename, st')

/-- `_def_union_type` (schema.py lines 1252-1284) for a `base` that is a
type name (the inline-dict base and the features list are not exercised by
these claims): with a discriminator, plain variants and no local members;
without one, simple variants, a synthesized `<name>Kind` discriminator enum
built from the variant names and conditions, and a synthesized non-optional
tag member `type`. -/
def defUnionType (st : SchemaSt) (name : String)
    (data : List (String × TypeRef × Option (List String)))
    (base : Option String) (ifcond : Option (List String))
    (tagName : Option String) : Except BErr SchemaSt :=
  match tagName with
  | some _ =>
    match makeVariants data with
    | .error e => .error e
    | .ok variants =>
      defEntity st (.objectT name (.conds (ifcond.getD [])) base []
        (some ⟨tagName, none, variants⟩))
  | none =>
    match makeSimpleVariants st data with
    | .error e => .error e
    | .ok (variants, st1) =>
      let enumValues := variants.map (fun v => (v.name, v.ifcond))
      match makeImplicitEnumType st1 name ifcond enumValues with
      | .error e => .error e
      | .ok (ename, st2) =>
        let tagMember : MemberDef := ⟨"type", ename, false, [], []⟩
        defEntity st2 (.objectT name (.conds (ifcond.getD [])) base [tagMember]
          (some ⟨none, some tagMember, variants⟩))

/-- `_def_builtin_type` (schema.py lines 1072-1081): the builtin and its
always-instantiated array type. -/
def defBuiltinType (st : SchemaSt) (name jsonType cType : String) :
    Except BErr SchemaSt :=
  match defEntity st (.builtin name jsonType cType) with
  | .error e => .error e
  | .ok st1 => .ok (makeArrayType st1 name).2

/-- `_def_predefineds` (schema.py lines 1083-1110): the builtin types with
their arrays, the empty object type `q_empty`, and the `QType` enum. -/
def defPredefineds (st : SchemaSt) : Except BErr SchemaSt :=
  let builtins : List (String × String × String) :=
    [("str", "string", "char" ++ "*"),
     ("number", "number", "double"),
     ("int", "int", "int64_t"),
     ("int8", "int", "int8_t"),
     ("int16", "int", "int16_t"),
     ("int32", "int", "int32_t"),
     ("int64", "int", "int64_t"),
     ("uint8", "int", "uint8_t"),
     ("uint16", "int", "uint16_t"),
     ("uint32", "int", "uint32_t"),
     ("uint64", "int", "uint64_t"),
     ("size", "int", "uint64_t"),
     ("bool", "boolean", "bool"),
     ("any", "value", "QObject" ++ "*"),
     ("null", "null", "QNull" ++ "*")]
  let step := fun (acc : Except BErr SchemaSt) (b : String × String × String) =>
    match acc with
    | .error e => .error e
    | .ok st => defBuiltinType st b.1 b.2.1 b.2.2
  match builtins.foldl step (.ok st) with
  | .error e => .error e
  | .ok st1 =>
    match defEntity st1 (.objectT "q_empty" (.conds []) none [] none) with
    | .error e => .error e
    | .ok st2 =>
      defEntity st2 (.enumT "QType" (.conds [])
        [("none", []), ("qnull", []), ("qnum", []), ("qstring", []),
         ("qdict", []), ("qlist", []), ("qbool", [])] (some "QTYPE"))

/-- The model built from the single expression
`{'union': 'U', 'data': {'a': 'int', 'b': 'str'}}` (no discriminator):
the predefined entities followed by `_def_union_type`. -/
def simpleUnionDemo : Except BErr SchemaSt :=
  match defPredefineds ⟨[]⟩ with
  | .error e => .error e
  | .ok st0 =>
    defUnionType st0 "U"
      [("a", TypeRef.tname "int", none), ("b", TypeRef.tname "str", none)]
      none none none

/-- C7: building the model from the single expression
`{'union': 'U', 'data': {'a': 'int', 'b': 'str'}}` with no discriminator
produces a synthesized enum `UKind` with members exactly `a` and `b`, and
two distinct single-member wrapper object types `q_obj_int-wrapper` and
`q_obj_str-wrapper`, each wrapping the branch's payload type in a member
named `data`; the union's tag member is the synthesized `type : UKind` and
its branches point at the two wrappers. -/
theorem simple_union_synthesis :
    (simpleUnionDemo.map (fun st' =>
        (st'.lookupEntity "UKind",
         st'.lookupEntity "q_obj_int-wrapper",
         st'.lookupEntity "q_obj_str-wrapper",
         st'.lookupEntity "U"))).toOption =
      some
        (some (.enumT "UKind" (.conds []) [("a", []), ("b", [])] none),
         some (.objectT "q_obj_int-wrapper" (.typeRef "int") none
           [⟨"data", "int", false, [], []⟩] none),
         some (.objectT "q_obj_str-wrapper" (.typeRef "str") none
           [⟨"data", "str", false, [], []⟩] none),
         some (.objectT "U" (.conds []) none
           [⟨"type", "UKind", false, [], []⟩]
           (some ⟨none, some ⟨"type", "UKind", false, [], []⟩,
             [⟨"a", "q_obj_int-wrapper", []⟩,
              ⟨"b", "q_obj_str-wrapper", []⟩]⟩))) ∧
    ("q_obj_int-wrapper" : String) ≠ "q_obj_str-wrapper" := by
  decide

/-- C9: when `_make_implicit_object_type` is invoked for a synthesized name
that already denotes a defined object type, it returns that name with the
state unchanged — no duplicate entity is created — if and only if the call
site's (normalized) condition is exactly equal to the stored entity's
condition; with any different condition the internal assertion fails.
Conditions are never merged or disjoined. -/
theorem wrapper_reuse_asserts_equal_cond (st : SchemaSt) (name : String)
    (ifc : Option IfCond) (role : String) (members : List MemberDef)
    (stored : IfCond) (b : Option String) (ms : List MemberDef)
    (vr : Option VariantsDef)
    (hne : members.isEmpty = false)
    (hfound : st.lookupEntity ("q_obj_" ++ name ++ "-" ++ role) =
      some (.objectT ("q_obj_" ++ name ++ "-" ++ role) stored b ms vr)) :
    (makeImplicitObjectType st name ifc role members =
        .ok (some ("q_obj_" ++ name ++ "-" ++ role), st) ↔ normIf ifc = stored) ∧
    (normIf ifc ≠ stored →
      makeImplicitObjectType st name ifc role members = .error .assertFailed) := by
  unfold makeImplicitObjectType
  rw [hne]
  simp only [Bool.false_eq_true, if_false, hfound]
  by_cases hc : normIf ifc = stored
  · rw [if_pos hc]
    exact ⟨⟨fun _ => hc, fun _ => rfl⟩, fun hq => absurd hc hq⟩
  · rw [if_neg hc]
    refine ⟨⟨fun h => ?_, fun hq => absurd hq hc⟩, fun _ => rfl⟩
    exact Except.noConfusion h

/-- Witness for C9: a state already holding `q_obj_int-wrapper` with
condition `typeRef "int"`; re-synthesis with the identical condition reuses
the entity without touching the state, and the assertion requirement is
exactly condition equality. -/
theorem wrapper_reuse_asserts_equal_cond_witness :
    (makeImplicitObjectType
        ⟨[.objectT "q_obj_int-wrapper" (.typeRef "int") none
            [⟨"data", "int", false, [], []⟩] none]⟩
        "int" (some (.typeRef "int")) "wrapper" [⟨"data", "int", false, [], []⟩] =
      .ok (some ("q_obj_" ++ "int" ++ "-" ++ "wrapper"),
        ⟨[.objectT "q_obj_int-wrapper" (.typeRef "int") none
            [⟨"data", "int", false, [], []⟩] none]⟩) ↔
      normIf (some (.typeRef "int")) = .typeRef "int") ∧
    (normIf (some (.typeRef "int")) ≠ .typeRef "int" →
      makeImplicitObjectType
        ⟨[.objectT "q_obj_int-wrapper" (.typeRef "int") none
            [⟨"data", "int", false, [], []⟩] none]⟩
        "int" (some (.typeRef "int")) "wrapper" [⟨"data", "int", false, [], []⟩] =
        .error .assertFailed) :=
  wrapper_reuse_asserts_equal_cond
    ⟨[.objectT "q_obj_int-wrapper" (.typeRef "int") none
        [⟨"data", "int", false, [], []⟩] none]⟩
    "int" (some (.typeRef "int")) "wrapper" [⟨"data", "int", false, [], []⟩]
    (.typeRef "int") none [⟨"data", "int", false, [], []⟩] none
    (by decide) (by decide)

/-! ## C8: documentation of nonexistent members (`QAPIDoc`)

The documentation comment parser (`QAPIDoc`, parser.py lines 397-722) is a
line-oriented state machine; the mutable `_section` pointer is modelled as a
`CurPtr` into the doc record, the `_append_line` method pointer as an
`AppendMode`.  String manipulation is done on the underlying character
lists so that concrete runs evaluate. -/

/-- Python `str.isspace` characters relevant to `\s` and `.strip()`. -/
def isPySpace (c : Char) : Bool :=
  c = ' ' || c = '\t' || c = '\n' || c = '\r' || c = '\x0b' || c = '\x0c'

/-- `re.match(r'\s*', line).end()`: the number of leading whitespace chars. -/
def countLeadingSpace (s : String) : Nat :=
  (s.data.takeWhile isPySpace).length

/-- Python `str.rstrip()`. -/
def pyRstrip (s : String) : String :=
  ⟨(s.data.reverse.dropWhile isPySpace).reverse⟩

/-- Python `str.strip()`. -/
def pyStrip (s : String) : String :=
  ⟨((s.data.dropWhile isPySpace).reverse.dropWhile isPySpace).reverse⟩

/-- Python `line.split(' ', 1)[0]`. -/
def firstWord (s : String) : String :=
  ⟨s.data.takeWhile (· ≠ ' ')⟩

/-- Python `s[n:]`. -/
def strDrop (s : String) (n : Nat) : String :=
  ⟨s.data.drop n⟩

/-- `' ' * n`. -/
def spaces (n : Nat) : String :=
  ⟨List.replicate n ' '⟩

/-- Python `s.startswith(c)` for a single character. -/
def startsWithChar (s : String) (c : Char) : Bool :=
  match s.data with
  | c' :: _ => c' = c
  | [] => false

/-- Python `s.endswith(':')`. -/
def endsWithColon (s : String) : Bool :=
  match s.data.reverse with
  | ':' :: _ => true
  | _ => false

/-- `re.match(r'@\S*:\s*', line).end()` for a line starting with `@`: the
greedy `\S*` backtracks to the last `:` inside the leading non-space run,
then `\s*` swallows the following spaces; `none` when the regex does not
match (Python would crash on `.end()` of `None`). -/
def symMatchEnd (line : String) : Option Nat :=
  match line.data with
  | '@' :: rest =>
    let run := rest.takeWhile (fun c => !isPySpace c)
    match run.reverse.findIdx? (· = ':') with
    | none => none
    | some rIdx =>
      let j := 1 + (run.length - 1 - rIdx)
      some (j + 1 + ((line.data.drop (j + 1)).takeWhile isPySpace).length)
  | _ => none

/-- `re.match(r'\S*:\s*', line).end()`, same via the leading non-space run. -/
def secMatchEnd (line : String) : Option Nat :=
  let run := line.data.takeWhile (fun c => !isPySpace c)
  match run.reverse.findIdx? (· = ':') with
  | none => none
  | some rIdx =>
    let j := run.length - 1 - rIdx
    some (j + 1 + ((line.data.drop (j + 1)).takeWhile isPySpace).length)

/-- `re.match(r'(@\S+:)', line)` (parser.py line 684): the matched group, or
`none`; the match needs a `:` after at least one non-space char. -/
def freeformAtMatch (line : String) : Option String :=
  match line.data with
  | '@' :: rest =>
    let run := rest.takeWhile (fun c => !isPySpace c)
    match run.reverse.findIdx? (· = ':') with
    | none => none
    | some rIdx =>
      let p := run.length - 1 - rIdx
      if 1 ≤ p then some ("@" ++ String.mk (run.take (p + 1))) else none
  | _ => none

/-- A `QAPIDoc.Section` / `ArgSection` (parser.py lines 416-444): optional
name, accumulated text, expected indent, and — for argument/feature
sections — the connected member's name (`ArgSection.member`). -/
structure DocSection where
  name : Option String
  text : String
  indent : Nat
  member : Option String
  deriving DecidableEq, Repr

/-- Where the mutable `self._section` points. -/
inductive CurPtr
  | body
  | arg (name : String)
  | feature (name : String)
  | extra
  deriving DecidableEq, Repr

/-- Which `_append_line` method is installed. -/
inductive AppendMode
  | bodyM | argsM | featuresM | variousM
  deriving DecidableEq, Repr

/-- A `QAPIDoc` under construction (parser.py lines 446-457). -/
structure Doc where
  symbol : Option String
  body : DocSection
  args : List (String × DocSection)
  features : List (String × DocSection)
  sections : List DocSection
  cur : Option CurPtr
  mode : AppendMode
  deriving DecidableEq, Repr

/-- The fresh doc of `QAPIDoc.__init__`. -/
def initDoc : Doc :=
  ⟨none, ⟨none, "", 0, none⟩, [], [], [], some .body, .bodyM⟩

/-- The errors `QAPIDoc` raises while parsing (`QAPIDocError`);
`crashNoMatch` and `assertFailed` stand for Python crashes
(`AttributeError` on a failed regex match, failed `assert`). -/
inductive DocErr
  | missingSpace
  | endColon
  | invalidName
  | deIndent (expected : Nat)
  | freeformAt (word : String)
  | follows (word : String)
  | dupParamName (name : String)
  | invalidParamName
  | dupSection (name : String)
  | emptySection (name : String)
  | assertFailed
  | crashNoMatch
  deriving DecidableEq, Repr

/-- Update the association-list entry for `k` in place. -/
def aupdate (k : String) (f : DocSection → DocSection) :
    List (String × DocSection) → List (String × DocSection) :=
  List.map fun p => if p.1 = k then (p.1, f p.2) else p

/-- Update the last element of a list in place. -/
def updateLast (f : DocSection → DocSection) : List DocSection → List DocSection
  | [] => []
  | [x] => [f x]
  | x :: rest => x :: updateLast f rest

/-- The section `self._section` points at. -/
def Doc.curSection (d : Doc) : Option DocSection :=
  match d.cur with
  | some .body => some d.body
  | some (.arg n) => alookup n d.args
  | some (.feature n) => alookup n d.features
  | some .extra => d.sections.getLast?
  | none => none

/-- Mutate the section `self._section` points at. -/
def Doc.updateCur (d : Doc) (f : DocSection → DocSection) : Doc :=
  match d.cur with
  | some .body => { d with body := f d.body }
  | some (.arg n) => { d with args := aupdate n f d.args }
  | some (.feature n) => { d with features := aupdate n f d.features }
  | some .extra => { d with sections := updateLast f d.sections }
  | none => d

/-- `QAPIDoc.Section.append` (parser.py lines 424-436): enforce the
section's indent and accumulate the right-stripped line. -/
def sectionAppend (sec : DocSection) (line : String) : Except DocErr DocSection :=
  if line = "" then
    .ok { sec with text := sec.text ++ pyRstrip line ++ "\n" }
  else
    if countLeadingSpace line < sec.indent then .error (.deIndent sec.indent)
    else
      let line := strDrop line sec.indent
      .ok { sec with text := sec.text ++ pyRstrip line ++ "\n" }

/-- `self._section.append(line)` on the current section. -/
def docSectionAppend (d : Doc) (line : String) : Except DocErr Doc :=
  match d.curSection with
  | none => .error .assertFailed
  | some sec =>
    match sectionAppend sec line with
    | .error e => .error e
    | .ok sec' => .ok (d.updateCur fun _ => sec')

/-- `QAPIDoc._append_freeform` (parser.py lines 683-688). -/
def appendFreeform (d : Doc) (line : String) : Except DocErr Doc :=
  match freeformAtMatch line with
  | some w => .error (.freeformAt w)
  | none => docSectionAppend d line

/-- `QAPIDoc._end_section` (parser.py lines 675-681): strip the current
section's stored text, reject a named section left empty, drop the
pointer. -/
def endSection (d : Doc) : Except DocErr Doc :=
  match d.cur with
  | none => .ok d
  | some _ =>
    match d.curSection with
    | none => .error .assertFailed
    | some sec =>
      let text := pyStrip sec.text
      let d' := d.updateCur fun s => { s with text := text }
      match sec.name with
      | some n =>
        if n ≠ "" ∧ text = "" then .error (.emptySection n)
        else .ok { d' with cur := none }
      | none => .ok { d' with cur := none }

/-- `QAPIDoc._start_symbol_section` for `self.args`
(parser.py lines 651-663). -/
def startArgSection (d : Doc) (name : String) (indent : Nat) :
    Except DocErr Doc :=
  if name = "" then .error .invalidParamName
  else if (alookup name d.args).isSome then .error (.dupParamName name)
  else if ¬d.sections.isEmpty then .error .assertFailed
  else
    match endSection d with
    | .error e => .error e
    | .ok d' =>
      .ok { d' with args := d'.args ++ [(name, ⟨some name, "", indent, none⟩)],
                    cur := some (.arg name) }

/-- `QAPIDoc._start_symbol_section` for `self.features`
(parser.py lines 651-660, 665-666). -/
def startFeatureSection (d : Doc) (name : String) (indent : Nat) :
    Except DocErr Doc :=
  if name = "" then .error .invalidParamName
  else if (alookup name d.features).isSome then .error (.dupParamName name)
  else if ¬d.sections.isEmpty then .error .assertFailed
  else
    match endSection d with
    | .error e => .error e
    | .ok d' =>
      .ok { d' with features := d'.features ++ [(name, ⟨some name, "", indent, none⟩)],
                    cur := some (.feature name) }

/-- `QAPIDoc._start_section` (parser.py lines 668-673): `Returns`/`Since`
may occur at most once. -/
def startSection (d : Doc) (name : Option String) (indent : Nat) :
    Except DocErr Doc :=
  if (name = some "Returns" ∨ name = some "Since") ∧
      d.sections.any (fun s => s.name = name) then
    .error (.dupSection (name.getD ""))
  else
    match endSection d with
    | .error e => .error e
    | .ok d' =>
      .ok { d' with sections := d'.sections ++ [⟨name, "", indent, none⟩],
                    cur := some .extra }

/-- `QAPIDoc._is_section_tag` (parser.py lines 490-496). -/
def isSectionTag (name : String) : Bool :=
  name = "Returns:" || name = "Since:" || name = "Note:" || name = "Notes:" ||
  name = "Example:" || name = "Examples:" || name = "TODO:"

/-- `QAPIDoc._append_various_line` (parser.py lines 616-649): a symbol line
is an error (the message also names the first additional section); a
section tag starts an additional section with the tag's trailing indent;
then the line is appended. -/
def appendVariousLine (d : Doc) (line : String) : Except DocErr Doc :=
  let name := firstWord line
  if startsWithChar name '@' ∧ endsWithColon name then
    .error (.follows name)
  else if isSectionTag name then
    match secMatchEnd line with
    | none => .error .crashNoMatch
    | some indent =>
      let rest := strDrop line indent
      let (indent, line') :=
        if rest = "" then (0, rest) else (indent, spaces indent ++ rest)
      match startSection d (some ⟨name.data.dropLast⟩) indent with
      | .error e => .error e
      | .ok d' => appendFreeform d' line'
  else appendFreeform d line

/-- Does the current section's text end in a blank line (`\n\n`)? -/
def curTextEndsBlank (d : Doc) : Bool :=
  match d.curSection with
  | some sec =>
    match sec.text.data.reverse with
    | '\n' :: '\n' :: _ => true
    | _ => false
  | none => false

/-- Is the line non-empty with a non-space first character? -/
def nonIndentedNonEmpty (line : String) : Bool :=
  match line.data with
  | c :: _ => !isPySpace c
  | [] => false

/-- `QAPIDoc._append_args_line` (parser.py lines 538-582). -/
def appendArgsLine (d : Doc) (line : String) : Except DocErr Doc :=
  let name := firstWord line
  if startsWithChar name '@' ∧ endsWithColon name then
    match symMatchEnd line with
    | none => .error .crashNoMatch
    | some indent =>
      let rest := strDrop line indent
      let (indent, line') :=
        if rest = "" then (0, rest) else (indent, spaces indent ++ rest)
      match startArgSection d ⟨name.data.drop 1 |>.dropLast⟩ indent with
      | .error e => .error e
      | .ok d' => appendFreeform d' line'
  else if isSectionTag name then
    appendVariousLine { d with mode := .variousM } line
  else if curTextEndsBlank d ∧ nonIndentedNonEmpty line then
    if line = "Features:" then .ok { d with mode := .featuresM }
    else
      match startSection d none 0 with
      | .error e => .error e
      | .ok d' => appendVariousLine { d' with mode := .variousM } line
  else appendFreeform d line

/-- `QAPIDoc._append_features_line` (parser.py lines 584-614). -/
def appendFeaturesLine (d : Doc) (line : String) : Except DocErr Doc :=
  let name := firstWord line
  if startsWithChar name '@' ∧ endsWithColon name then
    match symMatchEnd line with
    | none => .error .crashNoMatch
    | some indent =>
      let rest := strDrop line indent
      let (indent, line') :=
        if rest = "" then (0, rest) else (indent, spaces indent ++ rest)
      match startFeatureSection d ⟨name.data.drop 1 |>.dropLast⟩ indent with
      | .error e => .error e
      | .ok d' => appendFreeform d' line'
  else if isSectionTag name then
    appendVariousLine { d with mode := .variousM } line
  else if curTextEndsBlank d ∧ nonIndentedNonEmpty line then
    match startSection d none 0 with
    | .error e => .error e
    | .ok d' => appendVariousLine { d' with mode := .variousM } line
  else appendFreeform d line

/-- `QAPIDoc._append_body_line` (parser.py lines 498-536): the first `@...:`
line of a block names the symbol; in a definition block a symbol line opens
an argument section, `Features:` switches to features, a section tag opens
an additional section; otherwise free-form text. -/
def appendBodyLine (d : Doc) (line : String) : Except DocErr Doc :=
  let name := firstWord line
  if d.symbol = none ∧ d.body.text = "" ∧ startsWithChar line '@' then
    if ¬endsWithColon line then .error .endColon
    else
      let sym : String := ⟨line.data.drop 1 |>.dropLast⟩
      if sym = "" then .error .invalidName
      else .ok { d with symbol := some sym }
  else if d.symbol ≠ none then
    if startsWithChar name '@' ∧ endsWithColon name then
      appendArgsLine { d with mode := .argsM } line
    else if line = "Features:" then .ok { d with mode := .featuresM }
    else if isSectionTag name then
      appendVariousLine { d with mode := .variousM } line
    else appendFreeform d line
  else appendFreeform d line

/-- `QAPIDoc.append` (parser.py lines 466-485): strip the leading `#`,
treat an empty rest as a blank line, require one space, dispatch on the
installed `_append_line`. -/
def docAppend (d : Doc) (rawline : String) : Except DocErr Doc :=
  let line := strDrop rawline 1
  if line = "" then appendFreeform d line
  else if ¬startsWithChar line ' ' then .error .missingSpace
  else
    let line := strDrop line 1
    match d.mode with
    | .bodyM => appendBodyLine d line
    | .argsM => appendArgsLine d line
    | .featuresM => appendFeaturesLine d line
    | .variousM => appendVariousLine d line

/-- Feeding the comment lines of one documentation block to `QAPIDoc.append`
and finishing with `end_comment` (= `_end_section`), as `_get_doc`
(parser.py lines 354-384) does. -/
def parseDoc : List String → Doc → Except DocErr Doc
  | [], d => endSection d
  | l :: rest, d =>
    match docAppend d l with
    | .error e => .error e
    | .ok d' => parseDoc rest d'

/-- `QAPIDoc.connect_member` (parser.py lines 690-694): an undocumented
member gets a fresh empty section; either way the section is connected. -/
def connectMember (d : Doc) (mname : String) : Doc :=
  if (alookup mname d.args).isSome then
    { d with args := aupdate mname (fun s => { s with member := some mname }) d.args }
  else
    { d with args := d.args ++ [(mname, ⟨some mname, "", 0, some mname⟩)] }

/-- Connecting all of a definition's members in order, as the object/enum
`connect_doc` methods do. -/
def connectMembers (d : Doc) (ms : List String) : Doc :=
  ms.foldl connectMember d

/-- The `QAPISemError`s of doc connection and checking: `connect_feature`
(parser.py lines 696-701) rejects a feature that "lacks documentation", and
`QAPIDoc.check` (parser.py lines 708-722) reports
"documented member(s) '...' do/does not exist", carrying the bogus names. -/
inductive DocSemErr
  | featureLacksDoc (name : String)
  | membersNotExist (names : List String)
  deriving DecidableEq, Repr

/-- `QAPIDoc.connect_feature` (parser.py lines 696-701): a feature with no
documented section raises "feature '%s' lacks documentation"; otherwise its
section is connected.  Unlike `connect_member`, no section is synthesized. -/
def connectFeature (d : Doc) (fname : String) : Except DocSemErr Doc :=
  if (alookup fname d.features).isSome then
    .ok { d with
      features := aupdate fname (fun s => { s with member := some fname }) d.features }
  else .error (.featureLacksDoc fname)

/-- Connecting all of a definition's features in order, as the base
`QAPISchemaEntity.connect_doc` (schema.py lines 96-100) does before the
subclasses connect the members. -/
def connectFeatures (d : Doc) : List String → Except DocSemErr Doc
  | [] => .ok d
  | f :: rest =>
    match connectFeature d f with
    | .error e => .error e
    | .ok d' => connectFeatures d' rest

/-- The inner `check_args_section` of `QAPIDoc.check` (parser.py lines
710-719): the sections never connected to a member are fatal. -/
def checkArgsSection (secs : List (String × DocSection)) : Except DocSemErr Unit :=
  let bogus := (secs.filter fun p => p.2.member = none).map Prod.fst
  if bogus.isEmpty then .ok () else .error (.membersNotExist bogus)

/-- `QAPIDoc.check` (parser.py lines 708-722): argument sections first, then
feature sections. -/
def docCheck (d : Doc) : Except DocSemErr Unit :=
  match checkArgsSection d.args with
  | .error e => .error e
  | .ok _ => checkArgsSection d.features

/-- The names reported by `docCheck`, if it fails. -/
def docCheckErrNames (d : Doc) : Option (List String) :=
  match docCheck d with
  | .error (.membersNotExist l) => some l
  | .error (.featureLacksDoc _) => none
  | .ok _ => none

theorem connectMember_features (d : Doc) (m : String) :
    (connectMember d m).features = d.features := by
  unfold connectMember
  split_ifs <;> rfl

theorem connectMembers_features (ms : List String) :
    ∀ d : Doc, (connectMembers d ms).features = d.features := by
  induction ms with
  | nil => intro d; rfl
  | cons m rest ih =>
    intro d
    have h1 : connectMembers d (m :: rest) = connectMembers (connectMember d m) rest := rfl
    rw [h1, ih, connectMember_features]

theorem connectMember_args_mem (d : Doc) (m : String) :
    ∀ p ∈ (connectMember d m).args,
      (p.1 = m ∧ p.2.member = some m) ∨ (p.1 ≠ m ∧ p ∈ d.args) := by
  intro p hp
  unfold connectMember at hp
  split_ifs at hp with hs
  · simp only [aupdate, List.mem_map] at hp
    obtain ⟨q, hq, hpeq⟩ := hp
    by_cases hqm : q.1 = m
    · left
      rw [← hpeq, if_pos hqm]
      exact ⟨hqm, rfl⟩
    · right
      rw [← hpeq, if_neg hqm]
      exact ⟨hqm, hq⟩
  · simp only [Option.isSome_iff_exists, not_exists] at hs
    have hnone : alookup m d.args = none := by
      cases hl : alookup m d.args with
      | none => rfl
      | some v => exact absurd hl (hs v)
    have hmk : m ∉ d.args.map Prod.fst := (alookup_eq_none m d.args).mp hnone
    rcases List.mem_append.mp hp with hp' | hp'
    · right
      refine ⟨fun hc => hmk ?_, hp'⟩
      exact hc ▸ List.mem_map_of_mem Prod.fst hp'
    · left
      simp only [List.mem_singleton] at hp'
      rw [hp']
      exact ⟨rfl, rfl⟩

theorem connectMember_args_mem_rev (d : Doc) (m : String) :
    ∀ q ∈ d.args, q.1 ≠ m → q ∈ (connectMember d m).args := by
  intro q hq hne
  unfold connectMember
  split_ifs with hs
  · simp only [aupdate, List.mem_map]
    exact ⟨q, hq, by rw [if_neg hne]⟩
  · exact List.mem_append_left _ hq

theorem connectMembers_forward (ms : List String) :
    ∀ (d : Doc) (p : String × DocSection),
      p ∈ (connectMembers d ms).args → p.2.member = none →
      p.1 ∉ ms ∧ p ∈ d.args := by
  induction ms with
  | nil =>
    intro d p hp _
    exact ⟨List.not_mem_nil _, hp⟩
  | cons m rest ih =>
    intro d p hp hnone
    have h1 : connectMembers d (m :: rest) = connectMembers (connectMember d m) rest := rfl
    rw [h1] at hp
    obtain ⟨hnr, hp'⟩ := ih (connectMember d m) p hp hnone
    rcases connectMember_args_mem d m p hp' with ⟨-, hsome⟩ | ⟨hne, hmem⟩
    · rw [hnone] at hsome
      exact Option.noConfusion hsome
    · refine ⟨fun hc => ?_, hmem⟩
      rcases List.mem_cons.mp hc with hc | hc
      · exact hne hc
      · exact hnr hc

theorem connectMembers_backward (ms : List String) :
    ∀ (d : Doc) (q : String × DocSection),
      q ∈ d.args → q.1 ∉ ms → q ∈ (connectMembers d ms).args := by
  induction ms with
  | nil => intro d q hq _; exact hq
  | cons m rest ih =>
    intro d q hq hnm
    have hne : q.1 ≠ m := fun hc => hnm (hc ▸ List.mem_cons_self _ _)
    have hnr : q.1 ∉ rest := fun hc => hnm (List.mem_cons_of_mem _ hc)
    exact ih (connectMember d m) q (connectMember_args_mem_rev d m q hq hne) hnr

theorem aupdate_mem (k : String) (f : DocSection → DocSection)
    (l : List (String × DocSection)) :
    ∀ p ∈ aupdate k f l,
      (∃ q ∈ l, q.1 = k ∧ p = (q.1, f q.2)) ∨ (p.1 ≠ k ∧ p ∈ l) := by
  intro p hp
  simp only [aupdate, List.mem_map] at hp
  obtain ⟨q, hq, hpeq⟩ := hp
  by_cases hqk : q.1 = k
  · left
    exact ⟨q, hq, hqk, by rw [← hpeq, if_pos hqk]⟩
  · right
    rw [← hpeq, if_neg hqk]
    exact ⟨hqk, hq⟩

theorem aupdate_mem_rev (k : String) (f : DocSection → DocSection)
    (l : List (String × DocSection)) :
    ∀ q ∈ l, q.1 ≠ k → q ∈ aupdate k f l := by
  intro q hq hne
  simp only [aupdate, List.mem_map]
  exact ⟨q, hq, by rw [if_neg hne]⟩

theorem connectFeature_ok_args (d d' : Doc) (f : String)
    (h : connectFeature d f = .ok d') : d'.args = d.args := by
  unfold connectFeature at h
  split_ifs at h with hs
  injection h with h
  rw [← h]

theorem connectFeature_ok_features (d d' : Doc) (f : String)
    (h : connectFeature d f = .ok d') :
    d'.features = aupdate f (fun s => { s with member := some f }) d.features := by
  unfold connectFeature at h
  split_ifs at h with hs
  injection h with h
  rw [← h]

theorem connectFeatures_args (fs : List String) :
    ∀ d d' : Doc, connectFeatures d fs = .ok d' → d'.args = d.args := by
  induction fs with
  | nil =>
    intro d d' h
    injection h with h
    rw [← h]
  | cons f rest ih =>
    intro d d' h
    have h0 : connectFeatures d (f :: rest) =
        match connectFeature d f with
        | .error e => .error e
        | .ok d1 => connectFeatures d1 rest := rfl
    rw [h0] at h
    cases h1 : connectFeature d f with
    | error e =>
      rw [h1] at h
      exact Except.noConfusion h
    | ok d1 =>
      rw [h1] at h
      rw [ih d1 d' h, connectFeature_ok_args d d1 f h1]

theorem connectFeatures_forward (fs : List String) :
    ∀ d d' : Doc, connectFeatures d fs = .ok d' →
      ∀ p ∈ d'.features, p.2.member = none → p.1 ∉ fs ∧ p ∈ d.features := by
  induction fs with
  | nil =>
    intro d d' h p hp _
    injection h with h
    subst h
    exact ⟨List.not_mem_nil _, hp⟩
  | cons f rest ih =>
    intro d d' h p hp hnone
    have h0 : connectFeatures d (f :: rest) =
        match connectFeature d f with
        | .error e => .error e
        | .ok d1 => connectFeatures d1 rest := rfl
    rw [h0] at h
    cases h1 : connectFeature d f with
    | error e =>
      rw [h1] at h
      exact Except.noConfusion h
    | ok d1 =>
      rw [h1] at h
      obtain ⟨hnr, hp1⟩ := ih d1 d' h p hp hnone
      rw [connectFeature_ok_features d d1 f h1] at hp1
      rcases aupdate_mem f _ d.features p hp1 with ⟨q, hq, hqf, hpe⟩ | ⟨hne, hmem⟩
      · rw [hpe] at hnone
        exact Option.noConfusion hnone
      · refine ⟨fun hc => ?_, hmem⟩
        rcases List.mem_cons.mp hc with hc | hc
        · exact hne (hc.trans rfl)
        · exact hnr hc

theorem connectFeatures_backward (fs : List String) :
    ∀ d d' : Doc, connectFeatures d fs = .ok d' →
      ∀ q ∈ d.features, q.1 ∉ fs → q ∈ d'.features := by
  induction fs with
  | nil =>
    intro d d' h q hq _
    injection h with h
    subst h
    exact hq
  | cons f rest ih =>
    intro d d' h q hq hnfs
    have h0 : connectFeatures d (f :: rest) =
        match connectFeature d f with
        | .error e => .error e
        | .ok d1 => connectFeatures d1 rest := rfl
    rw [h0] at h
    cases h1 : connectFeature d f with
    | error e =>
      rw [h1] at h
      exact Except.noConfusion h
    | ok d1 =>
      rw [h1] at h
      have hne : q.1 ≠ f := fun hc => hnfs (hc ▸ List.mem_cons_self _ _)
      have hq1 : q ∈ d1.features := by
        rw [connectFeature_ok_features d d1 f h1]
        exact aupdate_mem_rev f _ d.features q hq hne
      exact ih d1 d' h q hq1 fun hc => hnfs (List.mem_cons_of_mem _ hc)

theorem checkArgsSection_ok_iff (secs : List (String × DocSection)) :
    checkArgsSection secs = .ok () ↔ ∀ p ∈ secs, p.2.member ≠ none := by
  have hzeta : checkArgsSection secs =
      (if ((secs.filter fun p => p.2.member = none).map Prod.fst).isEmpty then
        Except.ok ()
       else
        .error (.membersNotExist
          ((secs.filter fun p => p.2.member = none).map Prod.fst))) := rfl
  rw [hzeta]
  split_ifs with hb
  · simp only [List.isEmpty_iff, List.map_eq_nil_iff, List.filter_eq_nil_iff] at hb
    constructor
    · intro _ p hp hnone
      exact absurd (by simpa using hnone) (hb p hp)
    · intro _; rfl
  · simp only [List.isEmpty_iff, List.map_eq_nil_iff, List.filter_eq_nil_iff,
      not_forall] at hb
    constructor
    · intro h; exact absurd h (by simp)
    · intro hall
      obtain ⟨p, hp, hdec⟩ := hb
      simp only [decide_eq_true_eq, not_not] at hdec
      exact absurd hdec (hall p hp)

theorem docCheck_ok_iff (d : Doc) :
    docCheck d = .ok () ↔
      (checkArgsSection d.args = .ok () ∧ checkArgsSection d.features = .ok ()) := by
  unfold docCheck
  cases ha : checkArgsSection d.args with
  | error e =>
    constructor
    · intro h; exact Except.noConfusion h
    · rintro ⟨h1, -⟩
      exact Except.noConfusion h1
  | ok u =>
    obtain ⟨⟩ := u
    constructor
    · intro h; exact ⟨rfl, h⟩
    · rintro ⟨-, h2⟩; exact h2

/-- C8: a documentation block whose argument or feature sections name a
member or feature that does not exist on the definition fails
`QAPIDoc.check` — run at model-validation time, after `connect_doc` — with
the "documented member(s) ... do/does not exist" error, and never at parse
time: parsing the block `@Point:` / `@missing: blah` / `Features:` /
`@bogus: nope` succeeds, recording the `missing` argument section and the
`bogus` feature section; connecting no features and the real members `[x]`
makes the check report exactly `missing`, while connecting member
`missing` makes it report exactly the nonexistent feature `bogus`. In
general, after `connect_feature` succeeds on a definition's features and
the members are connected, the check succeeds exactly when every
documented argument name is a member and every documented feature name is
a feature of the definition. -/
theorem doc_nonexistent_member_checked_late :
    ((parseDoc ["# @Point:", "#", "# @missing: blah", "#", "# Features:",
          "# @bogus: nope"] initDoc).toOption.map
        (fun dd => (dd.symbol, dd.args.map Prod.fst, dd.features.map Prod.fst)) =
      some (some "Point", ["missing"], ["bogus"])) ∧
    (((parseDoc ["# @Point:", "#", "# @missing: blah", "#", "# Features:",
          "# @bogus: nope"] initDoc).toOption.bind fun dd =>
        (connectFeatures dd []).toOption.map fun d' =>
          (docCheckErrNames (connectMembers d' ["x"]),
           docCheckErrNames (connectMembers d' ["missing"]))) =
      some (some ["missing"], some ["bogus"])) ∧
    (∀ (d : Doc) (ms fs : List String) (d' : Doc),
      (∀ p ∈ d.args, p.2.member = none) →
      (∀ p ∈ d.features, p.2.member = none) →
      connectFeatures d fs = .ok d' →
      (docCheck (connectMembers d' ms) = .ok () ↔
        ((∀ k ∈ d.args.map Prod.fst, k ∈ ms) ∧
         (∀ k ∈ d.features.map Prod.fst, k ∈ fs)))) := by
  refine ⟨by decide, by decide, ?_⟩
  · intro d ms fs d' hargs hfeats hcf
    have hargs' : d'.args = d.args := connectFeatures_args fs d d' hcf
    rw [docCheck_ok_iff, connectMembers_features, checkArgsSection_ok_iff,
      checkArgsSection_ok_iff]
    refine and_congr ?_ ?_
    · constructor
      · intro hall k hk
        by_contra hkm
        obtain ⟨q, hq, rfl⟩ := List.mem_map.mp hk
        have hq' : q ∈ d'.args := by
          rw [hargs']
          exact hq
        exact hall q (connectMembers_backward ms d' q hq' hkm) (hargs q hq)
      · intro hks p hp hnone
        obtain ⟨hnm, hmem⟩ := connectMembers_forward ms d' p hp hnone
        have hmem' : p ∈ d.args := by
          rw [← hargs']
          exact hmem
        exact hnm (hks p.1 (List.mem_map_of_mem Prod.fst hmem'))
    · constructor
      · intro hall k hk
        by_contra hkm
        obtain ⟨q, hq, rfl⟩ := List.mem_map.mp hk
        exact hall q (connectFeatures_backward fs d d' hcf q hq hkm) (hfeats q hq)
      · intro hks p hp hnone
        obtain ⟨hnf, hmem⟩ := connectFeatures_forward fs d d' hcf p hp hnone
        exact hnf (hks p.1 (List.mem_map_of_mem Prod.fst hmem))

/-- Witness for C8: a doc with the unconnected argument section `missing`
and the unconnected feature section `bogus`, on a definition whose only
member is `missing` and only feature is `bogus`: connecting the feature
succeeds, and after connecting the member the check succeeds, as the iff
requires. -/
theorem doc_nonexistent_member_checked_late_witness :
    docCheck (connectMembers
        ⟨some "Point", ⟨none, "", 0, none⟩,
          [("missing", ⟨some "missing", "blah", 10, none⟩)],
          [("bogus", ⟨some "bogus", "nope", 8, some "bogus"⟩)], [], none,
          .featuresM⟩
        ["missing"]) = .ok () ↔
      ((∀ k ∈ ([("missing", (⟨some "missing", "blah", 10, none⟩ : DocSection))].map
          Prod.fst), k ∈ ["missing"]) ∧
       (∀ k ∈ ([("bogus", (⟨some "bogus", "nope", 8, none⟩ : DocSection))].map
          Prod.fst), k ∈ ["bogus"])) :=
  doc_nonexistent_member_checked_late.2.2
    ⟨some "Point", ⟨none, "", 0, none⟩,
      [("missing", ⟨some "missing", "blah", 10, none⟩)],
      [("bogus", ⟨some "bogus", "nope", 8, none⟩)], [], none, .featuresM⟩
    ["missing"] ["bogus"]
    ⟨some "Point", ⟨none, "", 0, none⟩,
      [("missing", ⟨some "missing", "blah", 10, none⟩)],
      [("bogus", ⟨some "bogus", "nope", 8, some "bogus"⟩)], [], none,
      .featuresM⟩
    (by decide) (by decide) rfl
